import Mathlib

/-!  Verification of the nrfx CRACEN CTR_DRBG, TRNG and CryptoMaster AES-ECB drivers.

Shallow embedding of `nrfx_cracen_ctr_drbg.c`, `nrfx_cracen_trng.c` and
`nrfx_cracen_cm_aes_ecb.c`.  Bytes are `Nat` values below 256, byte arrays are
`List Nat`.  The hardware (AES accelerator, TRNG noise generator) is modelled
through explicit parameters and state records.
-/

namespace Cracen

/-- Models a hardware DMA write of exactly `n` bytes: the accelerator output
descriptor captures exactly `n` bytes, each one an 8-bit value. -/
def fixBytes (n : Nat) (l : List Nat) : List Nat :=
  ((l.map fun b => b % 256) ++ List.replicate n 0).take n

/-- All entries of the list are byte values (below 256). -/
def bytesWF (l : List Nat) : Prop := ∀ b ∈ l, b < 256

instance (l : List Nat) : Decidable (bytesWF l) :=
  List.decidableBAll (fun b => b < 256) l

/-- Value of a little-endian byte list (head is the least significant byte). -/
def leVal : List Nat → Nat
  | [] => 0
  | b :: rest => b + 256 * leVal rest

/-- The `n` little-endian bytes of `x` (truncating at `2 ^ (8 * n)`). -/
def natToLE : Nat → Nat → List Nat
  | 0, _ => []
  | n + 1, x => x % 256 :: natToLE n (x / 256)

/-- Value of a big-endian byte list (head is the most significant byte),
the representation used for the DRBG counter block `V`. -/
def beVal (l : List Nat) : Nat := leVal l.reverse

/-- The `n` big-endian bytes of `x` (truncating at `2 ^ (8 * n)`). -/
def natToBE (n x : Nat) : List Nat := (natToLE n x).reverse

/-- Carry loop of `be_incr` from `nrfx_cracen_ctr_drbg.c`, acting on the
reversed (little-endian first) byte list.  The C code walks the byte array
from its last byte towards the first, adding the carry `add`, storing the low
8 bits and keeping the carry, and stops as soon as the carry is zero (or the
first byte has been processed; a carry out of the first byte is dropped). -/
def be_incr_go (add : Nat) : List Nat → List Nat
  | [] => []
  | b :: rest =>
    let s := add + b
    if s / 256 = 0 then s % 256 :: rest
    else s % 256 :: be_incr_go (s / 256) rest

/-- `be_incr` from `nrfx_cracen_ctr_drbg.c`: increment by 1 a number stored
in memory in big-endian representation. -/
def be_incr (v : List Nat) : List Nat := (be_incr_go 1 v.reverse).reverse

/-- `bytesToWordsLE` packs bytes into 32-bit little-endian words, modelling
the C reinterpretation of a byte array as a `uint32_t` array on the
little-endian target (`xor_array` casts its arguments to `uint32_t *`). -/
def bytesToWordsLE : List Nat → List Nat
  | b0 :: b1 :: b2 :: b3 :: rest =>
    (b0 + 256 * b1 + 65536 * b2 + 16777216 * b3) :: bytesToWordsLE rest
  | _ => []

/-- `wordsToBytesLE` unpacks 32-bit words back into little-endian bytes. -/
def wordsToBytesLE : List Nat → List Nat
  | [] => []
  | w :: rest =>
    w % 256 :: w / 256 % 256 :: w / 65536 % 256 :: w / 16777216 % 256 ::
      wordsToBytesLE rest

/-- `xor_array` from `nrfx_cracen_ctr_drbg.c`: XOR two byte arrays of equal
size (a multiple of 4), performed word by word on the `uint32_t`
reinterpretation of the arrays. -/
def xor_array (a b : List Nat) : List Nat :=
  wordsToBytesLE (List.zipWith (fun x y => Nat.xor x y) (bytesToWordsLE a) (bytesToWordsLE b))

/-! ## DRBG data model (`nrfx_cracen_ctr_drbg.c`) -/

/-- `struct cracen_prng_status` from `nrfx_cracen_ctr_drbg.c`: the DRBG
internal state.  `key` holds 32 bytes, `V` 16 bytes, `reseed_counter` is a
64-bit integer (kept below `2 ^ 64`), `initialized` a flag. -/
structure PrngState where
  key : List Nat
  V : List Nat
  reseed_counter : Nat
  initialized : Bool
deriving DecidableEq

/-- Counters of hardware engagements made so far: how many block-cipher calls
(`nrfx_cracen_cm_aes_ecb`) and how many entropy acquisitions
(`nrfx_cracen_rng_get_entropy`) have been issued. -/
structure Ctrs where
  cipherCalls : Nat
  entropyCalls : Nat
deriving DecidableEq

/-- The environment the DRBG runs against: `aes` is the mathematical function
computed by the AES hardware for a given key and input block; `cipherFails i`
tells whether the `i`-th block-cipher invocation reports a hardware (DMA)
error; `entropy i` is the byte stream returned by the `i`-th entropy
acquisition and `entropyFails i` whether that acquisition fails. -/
structure Env where
  aes : List Nat → List Nat → List Nat
  cipherFails : Nat → Bool
  entropy : Nat → List Nat
  entropyFails : Nat → Bool

/-- One invocation of `nrfx_cracen_cm_aes_ecb` as observed by the DRBG core:
either a failure (`none`) or the 16 output bytes written by the accelerator
DMA.  The invocation counter advances either way. -/
def cm_aes_ecb_call (env : Env) (c : Ctrs) (key input : List Nat) :
    Option (List Nat) × Ctrs :=
  if env.cipherFails c.cipherCalls then
    (none, { c with cipherCalls := c.cipherCalls + 1 })
  else
    (some (fixBytes 16 (env.aes key input)), { c with cipherCalls := c.cipherCalls + 1 })

/-- Result of a DRBG operation: the C return code, the driver state, the
hardware-engagement counters, and the bytes written to the caller buffer. -/
structure DrbgResult where
  ret : Int
  st : PrngState
  c : Ctrs
  out : List Nat
deriving DecidableEq

/-- The `while (temp_length < sizeof(temp))` loop of `ctr_drbg_update`: each
iteration increments `V` in place, encrypts it and appends the 16-byte block
to `temp`.  Since `temp_length` starts at 0 and grows by `AES_BLK_SZ = 16`
towards `ENTROPY_SIZE = 48`, the loop runs exactly `blocks = 3` times; the
remaining iteration count is the recursion argument.  On a cipher failure the
loop aborts with -1, keeping the already-incremented `V`. -/
def ctr_drbg_update_go (env : Env) :
    Nat → PrngState → Ctrs → List Nat → Int × PrngState × Ctrs × List Nat
  | 0, st, c, temp => (0, st, c, temp)
  | blocks + 1, st, c, temp =>
    let st1 := { st with V := be_incr st.V }
    match cm_aes_ecb_call env c st1.key st1.V with
    | (none, c1) => (-1, st1, c1, temp)
    | (some blk, c1) => ctr_drbg_update_go env blocks st1 c1 (temp ++ blk)

/-- `ctr_drbg_update` from `nrfx_cracen_ctr_drbg.c`: produce 48 bytes of
cipher output (3 blocks), XOR the provided data in (if any), then commit the
first 32 bytes as the new key and the next 16 as the new `V`.  Returns 0 on
success, -1 if a block-cipher call failed (no commit in that case). -/
def ctr_drbg_update (env : Env) (data : Option (List Nat)) (st : PrngState)
    (c : Ctrs) : Int × PrngState × Ctrs :=
  let r := ctr_drbg_update_go env 3 st c []
  if r.1 ≠ 0 then (-1, r.2.1, r.2.2.1)
  else
    let temp := match data with
      | some d => xor_array r.2.2.2 d
      | none => r.2.2.2
    (0, { r.2.1 with key := temp.take 32, V := (temp.drop 32).take 16 }, r.2.2.1)

/-- `cracen_ctr_drbg_reseed` from `nrfx_cracen_ctr_drbg.c`: acquire
`ENTROPY_SIZE = 48` bytes of entropy, feed them through `ctr_drbg_update`,
and on success set `reseed_counter = 1`.  Returns 0 on success, -1 if the
entropy acquisition or the update failed. -/
def cracen_ctr_drbg_reseed (env : Env) (st : PrngState) (c : Ctrs) :
    Int × PrngState × Ctrs :=
  let entFail := env.entropyFails c.entropyCalls
  let ent := fixBytes 48 (env.entropy c.entropyCalls)
  let c1 : Ctrs := { c with entropyCalls := c.entropyCalls + 1 }
  if entFail then (-1, st, c1)
  else
    let r := ctr_drbg_update env (some ent) st c1
    if r.1 ≠ 0 then (-1, r.2.1, r.2.2)
    else (0, { r.2.1 with reseed_counter := 1 }, r.2.2)

/-- `nrfx_cracen_ctr_drbg_init`: `memset` the whole state to zero, reseed,
and on success set `initialized`. -/
def nrfx_cracen_ctr_drbg_init (env : Env) (c : Ctrs) : Int × PrngState × Ctrs :=
  let st0 : PrngState :=
    { key := List.replicate 32 0, V := List.replicate 16 0,
      reseed_counter := 0, initialized := false }
  let r := cracen_ctr_drbg_reseed env st0 c
  if r.1 ≠ 0 then (r.1, r.2.1, r.2.2)
  else (0, { r.2.1 with initialized := true }, r.2.2)

/-- The `while (size > 0)` output loop of `nrfx_cracen_ctr_drbg_get_random`:
each iteration increments `V`, encrypts it, and copies
`cur_len = min size 16` bytes to the output cursor.  Each iteration consumes
one 16-byte block, so the loop runs `(size + 15) / 16` times; that iteration
count is the recursion argument (`size` reaches 0 exactly when it does).
On a cipher failure the loop aborts with -1; bytes already written to the
caller buffer are kept. -/
def gen_loop (env : Env) :
    Nat → Nat → PrngState → Ctrs → List Nat → Int × PrngState × Ctrs × List Nat
  | 0, _, st, c, out => (0, st, c, out)
  | blocks + 1, size, st, c, out =>
    if 0 < size then
      let cur_len := min size 16
      let st1 := { st with V := be_incr st.V }
      match cm_aes_ecb_call env c st1.key st1.V with
      | (none, c1) => (-1, st1, c1, out)
      | (some temp, c1) =>
        gen_loop env blocks (size - cur_len) st1 c1 (out ++ temp.take cur_len)
    else (0, st, c, out)

/-- `nrfx_cracen_ctr_drbg_get_random` from `nrfx_cracen_ctr_drbg.c`.
`buf_null` models `p_buf == NULL`; the returned `out` lists the bytes the
function wrote through `p_buf`. -/
def nrfx_cracen_ctr_drbg_get_random (env : Env) (st : PrngState) (c : Ctrs)
    (buf_null : Bool) (size : Nat) : DrbgResult :=
  if 0 < size ∧ buf_null then { ret := -2, st := st, c := c, out := [] }
  else if size > 65536 then { ret := -2, st := st, c := c, out := [] }
  else
    let ri :=
      if ¬ st.initialized then nrfx_cracen_ctr_drbg_init env c
      else (0, st, c)
    if ri.1 ≠ 0 then { ret := -1, st := ri.2.1, c := ri.2.2, out := [] }
    else
      let rs :=
        if ri.2.1.reseed_counter ≥ 2 ^ 48 then
          cracen_ctr_drbg_reseed env ri.2.1 ri.2.2
        else (0, ri.2.1, ri.2.2)
      if rs.1 ≠ 0 then { ret := -1, st := rs.2.1, c := rs.2.2, out := [] }
      else
        let rg := gen_loop env ((size + 15) / 16) size rs.2.1 rs.2.2 []
        if rg.1 ≠ 0 then { ret := -1, st := rg.2.1, c := rg.2.2.1, out := rg.2.2.2 }
        else
          let ru := ctr_drbg_update env none rg.2.1 rg.2.2.1
          if ru.1 ≠ 0 then { ret := -1, st := ru.2.1, c := ru.2.2, out := rg.2.2.2 }
          else
            ({ ret := 0,
               st := { ru.2.1 with
                        reseed_counter := (ru.2.1.reseed_counter + 1) % 2 ^ 64 },
               c := ru.2.2, out := rg.2.2.2 })

/-! ## NIST reference (spec-side definitions for the refinement claim C1)

These definitions follow the words of the specification for the NIST
CTR_DRBG (AES-256, no derivation function): the counter block is treated as
one big-endian 128-bit integer wrapping at `2 ^ 128`, `update` produces 48
bytes by three times incrementing the counter block and encrypting it under
the current key, XORs the provided data in (word by word), and commits the
first 32 bytes as the new key and the next 16 as the new counter block;
`generate` produces output in 16-byte chunks, then runs one final
`update(None)` and increments the reseed counter. -/

/-- Increment of the counter block as one big-endian 128-bit integer,
wrapping at `2 ^ 128`. -/
def specIncr (v : List Nat) : List Nat :=
  natToBE 16 ((beVal v + 1) % 2 ^ 128)

/-- The NIST `CTR_DRBG_Update` process, following the specification text. -/
def nist_update (E : List Nat → List Nat → List Nat) (data : Option (List Nat))
    (key V : List Nat) : List Nat × List Nat :=
  let v1 := specIncr V
  let b1 := fixBytes 16 (E key v1)
  let v2 := specIncr v1
  let b2 := fixBytes 16 (E key v2)
  let v3 := specIncr v2
  let b3 := fixBytes 16 (E key v3)
  let temp := b1 ++ b2 ++ b3
  let temp2 := match data with
    | some d => xor_array temp d
    | none => temp
  (temp2.take 32, (temp2.drop 32).take 16)

/-- The output phase of the NIST generate process: produce output in 16-byte
chunks by incrementing the counter, encrypting it, and copying
`min remaining 16` bytes; returns the output and the final counter. -/
def nist_gen_blocks (E : List Nat → List Nat → List Nat) (key : List Nat) :
    Nat → Nat → List Nat → List Nat × List Nat
  | 0, _, V => ([], V)
  | blocks + 1, size, V =>
    if 0 < size then
      let v := specIncr V
      let blk := fixBytes 16 (E key v)
      let rest := nist_gen_blocks E key blocks (size - min size 16) v
      (blk.take (min size 16) ++ rest.1, rest.2)
    else ([], V)

/-- The NIST generate process: produce `size` bytes, run one final
`update(None)`, and increment the reseed counter.  Returns the output bytes,
the new key, the new counter block and the new reseed counter. -/
def nist_generate (E : List Nat → List Nat → List Nat) (key V : List Nat)
    (rc : Nat) (size : Nat) : List Nat × List Nat × List Nat × Nat :=
  let g := nist_gen_blocks E key ((size + 15) / 16) size V
  let u := nist_update E none key g.2
  (g.1, u.1, u.2, rc + 1)

/-- The NIST instantiate process for CTR_DRBG without derivation function:
key and counter start all-zero, one `update` with the 48-byte entropy input,
reseed counter set to 1. -/
def nist_instantiate (E : List Nat → List Nat → List Nat) (ent : List Nat) :
    List Nat × List Nat × Nat :=
  let u := nist_update E (some (fixBytes 48 ent)) (List.replicate 32 0)
    (List.replicate 16 0)
  (u.1, u.2, 1)

/-! ## TRNG model (`nrfx_cracen_trng.c`)

The HAL register accessors (`nrf_cracen_rng_*`) are not under `src/`; the
hardware they expose is modelled as an explicit record, following the
specification's enumeration of the noise-generator interface: an FSM state,
a FIFO of 32-bit words (drained head first, the fill level being the number
of words), and the conditioning-key registers. -/

/-- Modelled from the spec: the four states of the noise-generator hardware
FSM as read through `nrf_cracen_rng_fsm_state_get`. -/
inductive TrngFsm
  | reset
  | startup
  | ready
  | error
deriving DecidableEq

/-- Modelled from the spec: the observable noise-generator hardware state.
`fifo` is the output FIFO (head = next word drained, length = fill level),
`keyRegs` records the conditioning-key words programmed so far as
(index, word) pairs. -/
structure TrngHw where
  fsm : TrngFsm
  fifo : List Nat
  keyRegs : List (Nat × Nat)
deriving DecidableEq

/-- Return codes local to `nrfx_cracen_trng.c`. -/
def TRNG_OK : Int := 0

/-- `HW_PROCESSING`: waiting for the hardware to produce data. -/
def HW_PROCESSING : Int := -1

/-- `ERR_TOO_BIG`: requested size too large. -/
def ERR_TOO_BIG : Int := -2

/-- `TRNG_RESET_NEEDED`: the hardware must be reinitialized. -/
def TRNG_RESET_NEEDED : Int := -5

/-- Hardware operations issued by the TRNG driver, used to trace which
register writes a call performs. -/
inductive TrngOp
  | softReset
  | setOffTimer (v : Nat)
  | setClkDiv (v : Nat)
  | setInitWait (v : Nat)
  | ctrlEnable (blocks : Nat)
  | moduleEnable
  | moduleDisable
deriving DecidableEq

/-- `cracen_trng_init` from `nrfx_cracen_trng.c`: clear the driver's
`conditioning_key_set` flag, soft-reset the RNG (modelled from the spec: the
soft reset empties the FIFO and puts the FSM back into `RESET`), program the
off-timer (0), clock divider (0) and startup wait count (512), and enable
with 4 128-bit blocks per cycle.  Returns the new `conditioning_key_set`
flag, the hardware state and the register-write trace. -/
def cracen_trng_init (hw : TrngHw) : Bool × TrngHw × List TrngOp :=
  (false,
   { fsm := TrngFsm.reset, fifo := [], keyRegs := hw.keyRegs },
   [TrngOp.softReset, TrngOp.setOffTimer 0, TrngOp.setClkDiv 0,
    TrngOp.setInitWait 512, TrngOp.ctrlEnable 4])

/-- `cracen_trng_setup_conditioning_key` from `nrfx_cracen_trng.c`: if fewer
than `CONDITIONING_KEY_SIZE = 4` words are available return `HW_PROCESSING`,
otherwise drain 4 words from the FIFO into the conditioning-key registers
and set the `conditioning_key_set` flag. -/
def cracen_trng_setup_conditioning_key (ck : Bool) (hw : TrngHw) :
    Int × Bool × TrngHw :=
  if hw.fifo.length < 4 then (HW_PROCESSING, ck, hw)
  else
    (TRNG_OK, true,
     { hw with fifo := hw.fifo.drop 4,
               keyRegs := hw.keyRegs ++ (List.range 4).zip (hw.fifo.take 4) })

/-- The first `k` bytes of a FIFO word, least-significant byte first: the
inner `for` loop of the drain in `cracen_trng_get` emits `data & 0xFF` and
shifts `data` right by 8, `min size 4` times per word. -/
def word_bytes_le (w : Nat) : Nat → List Nat
  | 0 => []
  | k + 1 => w % 256 :: word_bytes_le (w / 256) k

/-- The `while (size)` drain loop of `cracen_trng_get`: pop one FIFO word per
(up to) 4 output bytes.  The empty-FIFO case cannot be reached because the
fill level is checked before draining. -/
def trng_drain : List Nat → Nat → List Nat × List Nat
  | fifo, 0 => ([], fifo)
  | [], _ => ([], [])
  | w :: rest, size =>
    let k := min size 4
    let r := trng_drain rest (size - k)
    (word_bytes_le w k ++ r.1, r.2)

/-- Full 4-byte little-endian serialization of a list of FIFO words. -/
def words_bytes : List Nat → List Nat
  | [] => []
  | w :: rest => word_bytes_le w 4 ++ words_bytes rest

/-- `cracen_trng_get` from `nrfx_cracen_trng.c`: on FSM `ERROR` return
`TRNG_RESET_NEEDED`; on `RESET` return `HW_PROCESSING`; on `STARTUP` fall
through exactly like the default (`READY`) case.  Then set up the
conditioning key if not yet done, check the FIFO fill level against the
request, and drain.  Returns the status, the `conditioning_key_set` flag,
the hardware state, and the bytes written to `dst`. -/
def cracen_trng_get (ck : Bool) (hw : TrngHw) (size : Nat) :
    Int × Bool × TrngHw × List Nat :=
  match hw.fsm with
  | TrngFsm.error => (TRNG_RESET_NEEDED, ck, hw, [])
  | TrngFsm.reset => (HW_PROCESSING, ck, hw, [])
  | _ =>
    let s :=
      if ¬ ck then cracen_trng_setup_conditioning_key ck hw
      else (TRNG_OK, ck, hw)
    if s.1 ≠ TRNG_OK then (s.1, s.2.1, s.2.2, [])
    else
      let level := s.2.2.fifo.length
      if size > level * 4 then (HW_PROCESSING, s.2.1, s.2.2, [])
      else
        let d := trng_drain s.2.2.fifo size
        (TRNG_OK, s.2.1, { s.2.2 with fifo := d.2 }, d.1)

/-- Modelled from the spec: the reset value of the RNG FIFO wakeup threshold
register (`CRACENCORE_RNGCONTROL_FIFOTHRESHOLD_ResetValue`, whose MDK
definition is not under `src/`); the derived bound
`(threshold + 1) * 16 = 64` bytes admits the DRBG's fixed 48-byte seed
request, as the specification requires. -/
def FIFOTHRESHOLD_ResetValue : Nat := 3

/-- The `while (true)` retry loop of `nrfx_cracen_rng_get_entropy`.  `evolve`
models the autonomous hardware progression between two polls (self-tests
advancing the FSM, new words filling the FIFO); `fuel` bounds the number of
iterations modelled, `none` meaning the call is still blocked polling.  On
entry with `ret = TRNG_RESET_NEEDED` the iteration first reinitializes the
hardware. -/
def get_entropy_loop (evolve : Nat → TrngHw → TrngHw) :
    Nat → Nat → Int → Bool → TrngHw → Nat → List TrngOp →
    Option (Bool × TrngHw × List Nat × List TrngOp)
  | 0, _, _, _, _, _, _ => none
  | fuel + 1, i, ret, ck, hw, size, tr =>
    let s :=
      if ret = TRNG_RESET_NEEDED then
        let ini := cracen_trng_init hw
        (ini.1, ini.2.1, tr ++ ini.2.2)
      else (ck, hw, tr)
    let hw1 := evolve i s.2.1
    let g := cracen_trng_get s.1 hw1 size
    if g.1 = TRNG_OK then some (g.2.1, g.2.2.1, g.2.2.2, s.2.2)
    else get_entropy_loop evolve fuel (i + 1) g.1 g.2.1 g.2.2.1 size s.2.2

/-- `nrfx_cracen_rng_get_entropy` from `nrfx_cracen_trng.c`: reject sizes
above the FIFO-threshold-derived bound before touching the hardware, enable
the RNG module, loop (starting from a forced initialization) until
`cracen_trng_get` succeeds, and disable the module.  `none` means the call
is still blocked polling after `fuel` iterations. -/
def nrfx_cracen_rng_get_entropy (evolve : Nat → TrngHw → TrngHw) (fuel : Nat)
    (hw : TrngHw) (size : Nat) :
    Option (Int × TrngHw × List Nat × List TrngOp) :=
  if size > (FIFOTHRESHOLD_ResetValue + 1) * 16 then some (ERR_TOO_BIG, hw, [], [])
  else
    match get_entropy_loop evolve fuel 0 TRNG_RESET_NEEDED false hw size
      [TrngOp.moduleEnable] with
    | none => none
    | some r => some (TRNG_OK, r.2.1, r.2.2.1, r.2.2.2 ++ [TrngOp.moduleDisable])

/-! ## CryptoMaster AES-ECB model (`nrfx_cracen_cm_aes_ecb.c`)

The HAL accessors (`nrf_cracen_cm_*`) are not under `src/`; the accelerator
is modelled through the status observations the driver polls and through a
trace of the operations it issues. -/

/-- Modelled from the spec: one observation of the CryptoMaster status as
read by `cracen_cm_check_done` — whether a fetch/push DMA error interrupt is
pending, and whether the engine is still busy (busy-fetch, busy-push or
push-waiting). -/
structure CmStatus where
  errPending : Bool
  busy : Bool

/-- `cracen_cm_check_done` from `nrfx_cracen_cm_aes_ecb.c`: error bits are
checked first (-2), then busy bits (-1), otherwise done (0). -/
def cracen_cm_check_done (s : CmStatus) : Int :=
  if s.errPending then -2 else if s.busy then -1 else 0

/-- Hardware operations issued by `nrfx_cracen_cm_aes_ecb`, in order. -/
inductive CmOp
  | enable
  | setFetchAddr
  | setPushAddr
  | setIndirect
  | dmb
  | start
  | softReset
  | disable
deriving DecidableEq

/-- The `do ... while (ret == -1)` polling loop of `nrfx_cracen_cm_aes_ecb`:
`polls i` is the status observed at the `i`-th poll; `none` means the
accelerator was still busy after `fuel` polls. -/
def cm_poll_loop (polls : Nat → CmStatus) : Nat → Nat → Option Int
  | 0, _ => none
  | fuel + 1, i =>
    let r := cracen_cm_check_done (polls i)
    if r = -1 then cm_poll_loop polls fuel (i + 1) else some r

/-- `nrfx_cracen_cm_aes_ecb` from `nrfx_cracen_cm_aes_ecb.c`: build the
(transient, stack-scoped) descriptor chain, enable the module, program the
fetch/push addresses and indirect mode, start the job, poll until done or
error, then soft-reset the core and disable the module, returning the poll
verdict.  `aes` is the mathematical AES-ECB function the accelerator
computes; on success the DMA has written its 16-byte result. -/
def nrfx_cracen_cm_aes_ecb (aes : List Nat → List Nat → List Nat)
    (polls : Nat → CmStatus) (fuel : Nat) (key input : List Nat) :
    Option (Int × List Nat × List CmOp) :=
  match cm_poll_loop polls fuel 0 with
  | none => none
  | some r =>
    some (r,
      if r = 0 then fixBytes 16 (aes key input) else [],
      [CmOp.enable, CmOp.setFetchAddr, CmOp.setPushAddr, CmOp.setIndirect,
       CmOp.dmb, CmOp.start, CmOp.softReset, CmOp.disable])

/-- Whether the CryptoMaster module is enabled after executing the given
operation trace, starting from `b`. -/
def cm_enabled_after : List CmOp → Bool → Bool
  | [], b => b
  | op :: rest, b =>
    cm_enabled_after rest
      (match op with
       | CmOp.enable => true
       | CmOp.disable => false
       | _ => b)

/-! ## Composition of the DRBG with the CryptoMaster model, and concrete
test fixtures -/

/-- The DRBG environment induced by running every block-cipher invocation
through the CryptoMaster model: call `i` busy-polls the status stream
`pollsFor i` (for at most `fuel` polls) and fails when the poll verdict is a
DMA error.  A call still busy after `fuel` polls never returns in the real
driver (it busy-waits); such calls are outside the scope of the theorems,
which assume every poll loop terminates. -/
def envOfCm (aes : List Nat → List Nat → List Nat)
    (pollsFor : Nat → Nat → CmStatus) (fuel : Nat)
    (entropy : Nat → List Nat) (entropyFails : Nat → Bool) : Env :=
  { aes := aes,
    cipherFails := fun i =>
      match cm_poll_loop (pollsFor i) fuel 0 with
      | some r => decide (r ≠ 0)
      | none => true,
    entropy := entropy, entropyFails := entropyFails }

/-- Concatenated CryptoMaster operation trace of `n` consecutive
`nrfx_cracen_cm_aes_ecb` calls starting at call index `i` (a call whose poll
loop does not terminate contributes no completed trace). -/
def drbg_cm_trace (pollsFor : Nat → Nat → CmStatus) (fuel : Nat) :
    Nat → Nat → List CmOp
  | _, 0 => []
  | i, n + 1 =>
    (match cm_poll_loop (pollsFor i) fuel 0 with
     | none => []
     | some _ =>
       [CmOp.enable, CmOp.setFetchAddr, CmOp.setPushAddr, CmOp.setIndirect,
        CmOp.dmb, CmOp.start, CmOp.softReset, CmOp.disable]) ++
      drbg_cm_trace pollsFor fuel (i + 1) n

/-- The environment of a generator whose hardware never fails and whose
Entropy Source always returns the same fixed byte sequence. -/
def pureEnv (E : List Nat → List Nat → List Nat) (ent : List Nat) : Env :=
  { aes := E, cipherFails := fun _ => false, entropy := fun _ => ent,
    entropyFails := fun _ => false }

/-- A concrete fault-free environment used for concrete evaluations: the
block cipher echoes its input block and the Entropy Source returns the bytes
0,...,47. -/
def cEnv : Env :=
  { aes := fun _ v => v, cipherFails := fun _ => false,
    entropy := fun _ => List.range 48, entropyFails := fun _ => false }

/-- `cEnv` with a block cipher that always outputs the all-zero block. -/
def cEnvZ : Env := { cEnv with aes := fun _ _ => List.replicate 16 0 }

/-- `cEnv` whose very first block-cipher invocation reports a DMA error. -/
def cEnvF : Env := { cEnv with cipherFails := fun i => i == 0 }

/-- A concrete initialized generator state: all-ones key, all-zero counter
block, reseed counter 1. -/
def cSt : PrngState :=
  { key := List.replicate 32 1, V := List.replicate 16 0,
    reseed_counter := 1, initialized := true }

/-- A concrete noise-generator hardware state in `STARTUP` with 16 FIFO
words 0,...,15 available. -/
def cHw : TrngHw :=
  { fsm := TrngFsm.startup, fifo := List.range 16, keyRegs := [] }

/-! ## Byte-representation lemmas -/

theorem bytesWF_reverse (l : List Nat) (h : bytesWF l) : bytesWF l.reverse := by
  intro b hb
  exact h b (List.mem_reverse.mp hb)

theorem length_natToLE (n x : Nat) : (natToLE n x).length = n := by
  induction n generalizing x with
  | zero => rfl
  | succ n ih => simp [natToLE, ih]

theorem bytesWF_natToLE (n x : Nat) : bytesWF (natToLE n x) := by
  induction n generalizing x with
  | zero => intro b hb; cases hb
  | succ n ih =>
    intro b hb
    simp only [natToLE] at hb
    cases hb with
    | head => exact Nat.mod_lt _ (by norm_num)
    | tail _ h => exact ih (x / 256) b h

theorem leVal_natToLE (n x : Nat) : leVal (natToLE n x) = x % 2 ^ (8 * n) := by
  induction n generalizing x with
  | zero => simp [natToLE, leVal, Nat.mod_one]
  | succ n ih =>
    simp only [natToLE, leVal, ih]
    have h2 : (2 : Nat) ^ (8 * (n + 1)) = 256 * 2 ^ (8 * n) := by
      rw [show 8 * (n + 1) = 8 + 8 * n by ring, pow_add]
      norm_num
    rw [h2, Nat.mod_mul]

theorem natToLE_mod (n x : Nat) : natToLE n (x % 2 ^ (8 * n)) = natToLE n x := by
  induction n generalizing x with
  | zero => rfl
  | succ n ih =>
    have h2 : (2 : Nat) ^ (8 * (n + 1)) = 256 * 2 ^ (8 * n) := by
      rw [show 8 * (n + 1) = 8 + 8 * n by ring, pow_add]
      norm_num
    simp only [natToLE, h2]
    congr 1
    · exact Nat.mod_mod_of_dvd x ⟨2 ^ (8 * n), rfl⟩
    · rw [Nat.mod_mul_right_div_self, ih (x / 256)]

theorem natToLE_leVal (l : List Nat) (h : bytesWF l) :
    natToLE l.length (leVal l) = l := by
  induction l with
  | nil => rfl
  | cons b r ih =>
    have hb : b < 256 := h b (List.mem_cons_self _ _)
    have hr : bytesWF r := fun x hx => h x (List.mem_cons_of_mem _ hx)
    simp only [List.length_cons, natToLE, leVal]
    congr 1
    · rw [Nat.add_mul_mod_self_left, Nat.mod_eq_of_lt hb]
    · rw [Nat.add_mul_div_left _ _ (by norm_num : (0:Nat) < 256),
        Nat.div_eq_of_lt hb, Nat.zero_add]
      exact ih hr

theorem be_incr_go_eq (l : List Nat) (add : Nat) (h : bytesWF l)
    (ha : add < 256) : be_incr_go add l = natToLE l.length (add + leVal l) := by
  induction l generalizing add with
  | nil => rfl
  | cons b r ih =>
    have hb : b < 256 := h b (List.mem_cons_self _ _)
    have hr : bytesWF r := fun x hx => h x (List.mem_cons_of_mem _ hx)
    simp only [be_incr_go, List.length_cons, natToLE, leVal]
    have hmod : (add + (b + 256 * leVal r)) % 256 = (add + b) % 256 := by
      rw [← Nat.add_assoc, Nat.add_mul_mod_self_left]
    have hdiv : (add + (b + 256 * leVal r)) / 256 = (add + b) / 256 + leVal r := by
      rw [← Nat.add_assoc, Nat.add_mul_div_left _ _ (by norm_num : (0:Nat) < 256)]
    rw [hmod, hdiv]
    by_cases hz : (add + b) / 256 = 0
    · rw [if_pos hz, hz, Nat.zero_add, natToLE_leVal r hr]
    · have hlt : (add + b) / 256 < 256 := by omega
      rw [if_neg hz, ih ((add + b) / 256) hr hlt]

theorem be_incr_eq (v : List Nat) (h : bytesWF v) :
    be_incr v = natToBE v.length (beVal v + 1) := by
  unfold be_incr natToBE beVal
  rw [be_incr_go_eq v.reverse 1 (bytesWF_reverse v h) (by norm_num),
    List.length_reverse, Nat.add_comm]

theorem be_incr_eq_specIncr (v : List Nat) (h : bytesWF v)
    (hl : v.length = 16) : be_incr v = specIncr v := by
  rw [be_incr_eq v h, hl, specIncr]
  unfold natToBE
  rw [show (128 : Nat) = 8 * 16 by norm_num, natToLE_mod]

theorem length_specIncr (v : List Nat) : (specIncr v).length = 16 := by
  simp [specIncr, natToBE, length_natToLE]

theorem bytesWF_specIncr (v : List Nat) : bytesWF (specIncr v) := by
  unfold specIncr natToBE
  exact bytesWF_reverse _ (bytesWF_natToLE _ _)

theorem beVal_specIncr (v : List Nat) :
    beVal (specIncr v) = (beVal v + 1) % 2 ^ 128 := by
  unfold specIncr natToBE beVal
  rw [List.reverse_reverse, leVal_natToLE, show 8 * 16 = 128 by norm_num]
  exact Nat.mod_mod_of_dvd _ dvd_rfl

/-! ## fixBytes and xor_array lemmas -/

theorem length_fixBytes (n : Nat) (l : List Nat) : (fixBytes n l).length = n := by
  simp [fixBytes]

theorem bytesWF_fixBytes (n : Nat) (l : List Nat) : bytesWF (fixBytes n l) := by
  intro b hb
  unfold fixBytes at hb
  have hb2 := List.mem_of_mem_take hb
  rcases List.mem_append.mp hb2 with h | h
  · obtain ⟨a, _, rfl⟩ := List.mem_map.mp h
    exact Nat.mod_lt _ (by norm_num)
  · rw [List.eq_of_mem_replicate h]
    norm_num

theorem length_wordsToBytesLE (ws : List Nat) :
    (wordsToBytesLE ws).length = 4 * ws.length := by
  induction ws with
  | nil => rfl
  | cons w r ih => simp [wordsToBytesLE, ih]; ring

theorem bytesWF_wordsToBytesLE (ws : List Nat) : bytesWF (wordsToBytesLE ws) := by
  induction ws with
  | nil => intro b hb; cases hb
  | cons w r ih =>
    intro b hb
    simp only [wordsToBytesLE, List.mem_cons] at hb
    rcases hb with rfl | rfl | rfl | rfl | h
    · exact Nat.mod_lt _ (by norm_num)
    · exact Nat.mod_lt _ (by norm_num)
    · exact Nat.mod_lt _ (by norm_num)
    · exact Nat.mod_lt _ (by norm_num)
    · exact ih b h

theorem length_bytesToWordsLE (l : List Nat) :
    (bytesToWordsLE l).length = l.length / 4 := by
  induction l using bytesToWordsLE.induct with
  | case1 b0 b1 b2 b3 rest ih =>
    simp only [bytesToWordsLE, List.length_cons, ih]
    omega
  | case2 l h =>
    cases l with
    | nil => simp [bytesToWordsLE]
    | cons a t =>
      cases t with
      | nil => simp [bytesToWordsLE]
      | cons b t =>
        cases t with
        | nil => simp [bytesToWordsLE]
        | cons c t =>
          cases t with
          | nil => simp [bytesToWordsLE]
          | cons d t => exact absurd rfl (h a b c d t)

theorem length_xor_array (a b : List Nat) :
    (xor_array a b).length = 4 * min (a.length / 4) (b.length / 4) := by
  unfold xor_array
  rw [length_wordsToBytesLE, List.length_zipWith, length_bytesToWordsLE,
    length_bytesToWordsLE]

theorem bytesWF_xor_array (a b : List Nat) : bytesWF (xor_array a b) := by
  unfold xor_array
  exact bytesWF_wordsToBytesLE _

/-! ## DRBG operation lemmas -/

theorem length_be_incr (v : List Nat) (h : bytesWF v) :
    (be_incr v).length = v.length := by
  rw [be_incr_eq v h]
  simp [natToBE, length_natToLE]

theorem bytesWF_be_incr (v : List Nat) (h : bytesWF v) : bytesWF (be_incr v) := by
  rw [be_incr_eq v h]
  exact bytesWF_reverse _ (bytesWF_natToLE _ _)

theorem update_go_ret (env : Env) (blocks : Nat) :
    ∀ st c temp, (ctr_drbg_update_go env blocks st c temp).1 = 0 ∨
      (ctr_drbg_update_go env blocks st c temp).1 = -1 := by
  induction blocks with
  | zero => intro st c temp; left; rfl
  | succ n ih =>
    intro st c temp
    simp only [ctr_drbg_update_go]
    split
    · right; rfl
    · exact ih _ _ _

theorem update_ret (env : Env) (data : Option (List Nat)) (st : PrngState)
    (c : Ctrs) : (ctr_drbg_update env data st c).1 = 0 ∨
      (ctr_drbg_update env data st c).1 = -1 := by
  simp only [ctr_drbg_update]
  rcases update_go_ret env 3 st c [] with h | h
  · simp [h]
  · simp [h]

theorem reseed_ret (env : Env) (st : PrngState) (c : Ctrs) :
    (cracen_ctr_drbg_reseed env st c).1 = 0 ∨
      (cracen_ctr_drbg_reseed env st c).1 = -1 := by
  simp only [cracen_ctr_drbg_reseed]
  by_cases he : env.entropyFails c.entropyCalls = true
  · simp [he]
  · rcases update_ret env (some (fixBytes 48 (env.entropy c.entropyCalls))) st
      { c with entropyCalls := c.entropyCalls + 1 } with h | h
    · simp [he, h]
    · simp [he, h]

theorem init_ret (env : Env) (c : Ctrs) :
    (nrfx_cracen_ctr_drbg_init env c).1 = 0 ∨
      (nrfx_cracen_ctr_drbg_init env c).1 = -1 := by
  simp only [nrfx_cracen_ctr_drbg_init]
  rcases reseed_ret env
    { key := List.replicate 32 0, V := List.replicate 16 0,
      reseed_counter := 0, initialized := false } c with h | h
  · rw [h]; simp
  · rw [h]; simp

theorem gen_loop_ret (env : Env) (blocks : Nat) :
    ∀ size st c out, (gen_loop env blocks size st c out).1 = 0 ∨
      (gen_loop env blocks size st c out).1 = -1 := by
  induction blocks with
  | zero => intro size st c out; left; rfl
  | succ n ih =>
    intro size st c out
    simp only [gen_loop]
    split
    · split
      · right; rfl
      · exact ih _ _ _ _
    · left; rfl

/-- Evaluation of the three iterations of the `ctr_drbg_update` loop when no
block-cipher call fails. -/
theorem update_go_3 (env : Env) (st : PrngState) (c : Ctrs) (temp : List Nat)
    (h0 : env.cipherFails c.cipherCalls = false)
    (h1 : env.cipherFails (c.cipherCalls + 1) = false)
    (h2 : env.cipherFails (c.cipherCalls + 2) = false) :
    ctr_drbg_update_go env 3 st c temp =
      (0, { st with V := be_incr (be_incr (be_incr st.V)) },
        { c with cipherCalls := c.cipherCalls + 3 },
        temp ++ fixBytes 16 (env.aes st.key (be_incr st.V))
             ++ fixBytes 16 (env.aes st.key (be_incr (be_incr st.V)))
             ++ fixBytes 16 (env.aes st.key (be_incr (be_incr (be_incr st.V))))) := by
  show ctr_drbg_update_go env (2 + 1) st c temp = _
  simp only [ctr_drbg_update_go, cm_aes_ecb_call, h0, h1, h2, Bool.false_eq_true,
    if_false]

theorem bytesWF_append {a b : List Nat} (ha : bytesWF a) (hb : bytesWF b) :
    bytesWF (a ++ b) := by
  intro x hx
  rcases List.mem_append.mp hx with h | h
  · exact ha x h
  · exact hb x h

theorem bytesWF_take (n : Nat) (l : List Nat) (h : bytesWF l) :
    bytesWF (l.take n) :=
  fun x hx => h x (List.mem_of_mem_take hx)

theorem bytesWF_drop (n : Nat) (l : List Nat) (h : bytesWF l) :
    bytesWF (l.drop n) :=
  fun x hx => h x (List.mem_of_mem_drop hx)

/-- On the success path `ctr_drbg_update` commits exactly the NIST update of
the current key and counter block. -/
theorem ctr_drbg_update_ok (env : Env) (data : Option (List Nat))
    (st : PrngState) (c : Ctrs)
    (hV : st.V.length = 16) (hwf : bytesWF st.V)
    (h0 : env.cipherFails c.cipherCalls = false)
    (h1 : env.cipherFails (c.cipherCalls + 1) = false)
    (h2 : env.cipherFails (c.cipherCalls + 2) = false) :
    ctr_drbg_update env data st c =
      (0, { st with key := (nist_update env.aes data st.key st.V).1,
                    V := (nist_update env.aes data st.key st.V).2 },
          { c with cipherCalls := c.cipherCalls + 3 }) := by
  have e1 : be_incr st.V = specIncr st.V := be_incr_eq_specIncr st.V hwf hV
  have e2 : be_incr (specIncr st.V) = specIncr (specIncr st.V) :=
    be_incr_eq_specIncr _ (bytesWF_specIncr _) (length_specIncr _)
  have e3 : be_incr (specIncr (specIncr st.V)) =
      specIncr (specIncr (specIncr st.V)) :=
    be_incr_eq_specIncr _ (bytesWF_specIncr _) (length_specIncr _)
  simp only [ctr_drbg_update, update_go_3 env st c [] h0 h1 h2, e1, e2, e3,
    List.nil_append]
  cases data with
  | none => simp [nist_update]
  | some d => simp [nist_update]

/-- Length and well-formedness of the counter block committed by
`nist_update`, when the extra data (if any) is 48 bytes long. -/
theorem nist_update_V_wf (E : List Nat → List Nat → List Nat)
    (data : Option (List Nat)) (key V : List Nat)
    (hd : ∀ d, data = some d → d.length = 48) :
    (nist_update E data key V).2.length = 16 ∧
      bytesWF (nist_update E data key V).2 := by
  have hlen : (fixBytes 16 (E key (specIncr V)) ++
      fixBytes 16 (E key (specIncr (specIncr V))) ++
      fixBytes 16 (E key (specIncr (specIncr (specIncr V))))).length = 48 := by
    simp [length_fixBytes]
  have hwf : bytesWF (fixBytes 16 (E key (specIncr V)) ++
      fixBytes 16 (E key (specIncr (specIncr V))) ++
      fixBytes 16 (E key (specIncr (specIncr (specIncr V))))) :=
    bytesWF_append (bytesWF_append (bytesWF_fixBytes _ _) (bytesWF_fixBytes _ _))
      (bytesWF_fixBytes _ _)
  cases data with
  | none =>
    refine ⟨?_, ?_⟩
    · simp only [nist_update, List.length_take, List.length_drop, hlen]
      omega
    · exact bytesWF_take _ _ (bytesWF_drop _ _ hwf)
  | some d =>
    have hd48 : d.length = 48 := hd d rfl
    refine ⟨?_, ?_⟩
    · simp only [nist_update, List.length_take, List.length_drop,
        length_xor_array, hlen, hd48]
      omega
    · exact bytesWF_take _ _ (bytesWF_drop _ _ (bytesWF_xor_array _ _))

/-- On the success path `cracen_ctr_drbg_reseed` commits the NIST update with
the acquired entropy and sets the reseed counter to 1. -/
theorem reseed_ok (env : Env) (st : PrngState) (c : Ctrs)
    (hV : st.V.length = 16) (hwf : bytesWF st.V)
    (he : env.entropyFails c.entropyCalls = false)
    (h0 : env.cipherFails c.cipherCalls = false)
    (h1 : env.cipherFails (c.cipherCalls + 1) = false)
    (h2 : env.cipherFails (c.cipherCalls + 2) = false) :
    cracen_ctr_drbg_reseed env st c =
      (0, { st with
              key := (nist_update env.aes
                (some (fixBytes 48 (env.entropy c.entropyCalls))) st.key st.V).1,
              V := (nist_update env.aes
                (some (fixBytes 48 (env.entropy c.entropyCalls))) st.key st.V).2,
              reseed_counter := 1 },
          { c with cipherCalls := c.cipherCalls + 3,
                   entropyCalls := c.entropyCalls + 1 }) := by
  simp only [cracen_ctr_drbg_reseed, he, Bool.false_eq_true, if_false]
  rw [ctr_drbg_update_ok env _ st { c with entropyCalls := c.entropyCalls + 1 }
    hV hwf h0 h1 h2]
  simp

/-- On the success path `nrfx_cracen_ctr_drbg_init` produces exactly the NIST
instantiate state (from the entropy of the first acquisition) and sets the
`initialized` flag. -/
theorem init_ok (env : Env) (c : Ctrs)
    (he : env.entropyFails c.entropyCalls = false)
    (h0 : env.cipherFails c.cipherCalls = false)
    (h1 : env.cipherFails (c.cipherCalls + 1) = false)
    (h2 : env.cipherFails (c.cipherCalls + 2) = false) :
    nrfx_cracen_ctr_drbg_init env c =
      (0, { key := (nist_instantiate env.aes (env.entropy c.entropyCalls)).1,
            V := (nist_instantiate env.aes (env.entropy c.entropyCalls)).2.1,
            reseed_counter := 1, initialized := true },
          { c with cipherCalls := c.cipherCalls + 3,
                   entropyCalls := c.entropyCalls + 1 }) := by
  simp only [nrfx_cracen_ctr_drbg_init]
  rw [reseed_ok env
    { key := List.replicate 32 0, V := List.replicate 16 0,
      reseed_counter := 0, initialized := false } c
    (by simp) (fun b hb => by rw [List.eq_of_mem_replicate hb]; norm_num)
    he h0 h1 h2]
  simp [nist_instantiate]

/-- Length and well-formedness of the counter after the NIST output phase. -/
theorem nist_gen_blocks_V_wf (E : List Nat → List Nat → List Nat)
    (key : List Nat) (blocks : Nat) :
    ∀ (size : Nat) (V : List Nat), V.length = 16 → bytesWF V →
      (nist_gen_blocks E key blocks size V).2.length = 16 ∧
        bytesWF (nist_gen_blocks E key blocks size V).2 := by
  induction blocks with
  | zero => intro size V hV hwf; exact ⟨hV, hwf⟩
  | succ n ih =>
    intro size V hV hwf
    by_cases hs : 0 < size
    · simp only [nist_gen_blocks, hs, if_true]
      exact ih (size - min size 16) (specIncr V) (length_specIncr V)
        (bytesWF_specIncr V)
    · simp only [nist_gen_blocks, hs, if_false]
      exact ⟨hV, hwf⟩

/-- On the success path the output loop of `get_random` produces exactly the
NIST output phase: one block-cipher call (hence one counter increment) per
16-byte chunk, `(size + 15) / 16` in total, touching neither the key, the
reseed counter, the `initialized` flag nor the entropy counter. -/
theorem gen_loop_ok (env : Env) (blocks : Nat) :
    ∀ (size : Nat) (st : PrngState) (c : Ctrs) (out : List Nat),
      (size + 15) / 16 ≤ blocks → st.V.length = 16 → bytesWF st.V →
      (∀ j, j < (size + 15) / 16 →
        env.cipherFails (c.cipherCalls + j) = false) →
      gen_loop env blocks size st c out =
        (0, { st with V := (nist_gen_blocks env.aes st.key blocks size st.V).2 },
            { c with cipherCalls := c.cipherCalls + (size + 15) / 16 },
            out ++ (nist_gen_blocks env.aes st.key blocks size st.V).1) := by
  induction blocks with
  | zero =>
    intro size st c out hb hV hwf hf
    have hz : size = 0 := by omega
    subst hz
    simp [gen_loop, nist_gen_blocks]
  | succ n ih =>
    intro size st c out hb hV hwf hf
    by_cases hs : 0 < size
    · have hpos : 0 < (size + 15) / 16 := by omega
      have h0 : env.cipherFails c.cipherCalls = false := by
        have h := hf 0 hpos
        simpa using h
      have e1 : be_incr st.V = specIncr st.V := be_incr_eq_specIncr st.V hwf hV
      have hceil : (size - min size 16 + 15) / 16 = (size + 15) / 16 - 1 := by
        omega
      simp only [gen_loop, hs, if_true, cm_aes_ecb_call, h0, Bool.false_eq_true,
        if_false]
      rw [ih (size - min size 16) { st with V := be_incr st.V }
        { c with cipherCalls := c.cipherCalls + 1 }
        (out ++ List.take (min size 16) (fixBytes 16 (env.aes st.key (be_incr st.V))))
        (by omega)
        (by rw [e1]; exact length_specIncr st.V)
        (by rw [e1]; exact bytesWF_specIncr st.V)
        (fun j hj => by
          have h := hf (j + 1) (by omega)
          have he : c.cipherCalls + 1 + j = c.cipherCalls + (j + 1) := by omega
          simpa [he] using h)]
      have hc : c.cipherCalls + 1 + ((size + 15) / 16 - 1) =
          c.cipherCalls + (size + 15) / 16 := by omega
      simp only [e1, hceil, hc]
      rw [show nist_gen_blocks env.aes st.key (n + 1) size st.V =
        ((fixBytes 16 (env.aes st.key (specIncr st.V))).take (min size 16) ++
          (nist_gen_blocks env.aes st.key n (size - min size 16)
            (specIncr st.V)).1,
          (nist_gen_blocks env.aes st.key n (size - min size 16)
            (specIncr st.V)).2) from by
        simp only [nist_gen_blocks, hs, if_true]]
      simp [List.append_assoc]
    · have hz : size = 0 := by omega
      subst hz
      simp [gen_loop, nist_gen_blocks]

/-- Success path of `get_random` for an initialized generator below the
reseed interval: the source computes exactly the NIST generate process
(output phase, one trailing `update(None)`, reseed counter incremented),
with `(size + 15) / 16 + 3` block-cipher calls and no entropy acquisition. -/
theorem get_random_ok (env : Env) (st : PrngState) (c : Ctrs)
    (buf_null : Bool) (size : Nat)
    (hvalid : ¬ (0 < size ∧ buf_null = true))
    (hsize : size ≤ 65536)
    (hinit : st.initialized = true)
    (hrc : st.reseed_counter < 2 ^ 48)
    (hV : st.V.length = 16) (hwf : bytesWF st.V)
    (hf : ∀ j, j < (size + 15) / 16 + 3 →
      env.cipherFails (c.cipherCalls + j) = false) :
    nrfx_cracen_ctr_drbg_get_random env st c buf_null size =
      { ret := 0,
        st := { st with
          key := (nist_generate env.aes st.key st.V st.reseed_counter size).2.1,
          V := (nist_generate env.aes st.key st.V st.reseed_counter size).2.2.1,
          reseed_counter := (st.reseed_counter + 1) % 2 ^ 64 },
        c := { c with cipherCalls := c.cipherCalls + ((size + 15) / 16 + 3) },
        out := (nist_generate env.aes st.key st.V st.reseed_counter size).1 } := by
  have hgl := gen_loop_ok env ((size + 15) / 16) size st c []
    (Nat.le_refl _) hV hwf (fun j hj => hf j (by omega))
  have hVg := nist_gen_blocks_V_wf env.aes st.key ((size + 15) / 16) size st.V
    hV hwf
  have hup := ctr_drbg_update_ok env none
    { st with V := (nist_gen_blocks env.aes st.key ((size + 15) / 16) size st.V).2 }
    { c with cipherCalls := c.cipherCalls + (size + 15) / 16 }
    hVg.1 hVg.2
    (by
      have h := hf ((size + 15) / 16) (by omega)
      have he : c.cipherCalls + (size + 15) / 16 + 0 =
          c.cipherCalls + ((size + 15) / 16) := by omega
      simpa using h)
    (by
      have h := hf ((size + 15) / 16 + 1) (by omega)
      have he : c.cipherCalls + (size + 15) / 16 + 1 =
          c.cipherCalls + ((size + 15) / 16 + 1) := by omega
      rw [show c.cipherCalls + (size + 15) / 16 + 1 =
        c.cipherCalls + ((size + 15) / 16 + 1) from by omega]
      exact h)
    (by
      rw [show c.cipherCalls + (size + 15) / 16 + 2 =
        c.cipherCalls + ((size + 15) / 16 + 2) from by omega]
      exact hf ((size + 15) / 16 + 2) (by omega))
  simp only [nrfx_cracen_ctr_drbg_get_random, if_neg hvalid,
    if_neg (by omega : ¬ size > 65536), hinit]
  simp only [not_true, if_false, ne_eq, not_false_eq_true, if_true,
    if_neg (by omega : ¬ st.reseed_counter ≥ 2 ^ 48)]
  rw [hgl]
  simp only [List.nil_append]
  rw [hup]
  have hc : c.cipherCalls + (size + 15) / 16 + 3 =
      c.cipherCalls + ((size + 15) / 16 + 3) := by omega
  simp [nist_generate, hc, hinit]

/-! ## Failure-path lemmas -/

/-- Evaluation of the `ctr_drbg_update` loop when the first cipher call
fails: the loop aborts after one counter increment. -/
theorem update_go_3_fail0 (env : Env) (st : PrngState) (c : Ctrs)
    (temp : List Nat) (h0 : env.cipherFails c.cipherCalls = true) :
    ctr_drbg_update_go env 3 st c temp =
      (-1, { st with V := be_incr st.V },
        { c with cipherCalls := c.cipherCalls + 1 }, temp) := by
  show ctr_drbg_update_go env (2 + 1) st c temp = _
  simp only [ctr_drbg_update_go, cm_aes_ecb_call, h0, if_true]

/-- Evaluation when the second cipher call fails: two counter increments. -/
theorem update_go_3_fail1 (env : Env) (st : PrngState) (c : Ctrs)
    (temp : List Nat) (h0 : env.cipherFails c.cipherCalls = false)
    (h1 : env.cipherFails (c.cipherCalls + 1) = true) :
    ctr_drbg_update_go env 3 st c temp =
      (-1, { st with V := be_incr (be_incr st.V) },
        { c with cipherCalls := c.cipherCalls + 2 },
        temp ++ fixBytes 16 (env.aes st.key (be_incr st.V))) := by
  show ctr_drbg_update_go env (2 + 1) st c temp = _
  simp only [ctr_drbg_update_go, cm_aes_ecb_call, h0, h1, Bool.false_eq_true,
    if_false, if_true]

/-- Evaluation when the third cipher call fails: three counter increments. -/
theorem update_go_3_fail2 (env : Env) (st : PrngState) (c : Ctrs)
    (temp : List Nat) (h0 : env.cipherFails c.cipherCalls = false)
    (h1 : env.cipherFails (c.cipherCalls + 1) = false)
    (h2 : env.cipherFails (c.cipherCalls + 2) = true) :
    ctr_drbg_update_go env 3 st c temp =
      (-1, { st with V := be_incr (be_incr (be_incr st.V)) },
        { c with cipherCalls := c.cipherCalls + 3 },
        temp ++ fixBytes 16 (env.aes st.key (be_incr st.V))
             ++ fixBytes 16 (env.aes st.key (be_incr (be_incr st.V)))) := by
  show ctr_drbg_update_go env (2 + 1) st c temp = _
  simp only [ctr_drbg_update_go, cm_aes_ecb_call, h0, h1, h2,
    Bool.false_eq_true, if_false, if_true]

/-- `ctr_drbg_update` fails exactly when one of its three block-cipher calls
fails, and on failure the key, reseed counter and `initialized` flag are
untouched while `V` keeps the increments performed before the failing call. -/
theorem ctr_drbg_update_fail_iff (env : Env) (data : Option (List Nat))
    (st : PrngState) (c : Ctrs) :
    ((ctr_drbg_update env data st c).1 = -1 ↔
      (env.cipherFails c.cipherCalls = true ∨
        env.cipherFails (c.cipherCalls + 1) = true ∨
        env.cipherFails (c.cipherCalls + 2) = true)) ∧
    ((ctr_drbg_update env data st c).1 = -1 →
      (ctr_drbg_update env data st c).2.1.key = st.key ∧
      (ctr_drbg_update env data st c).2.1.reseed_counter = st.reseed_counter ∧
      (ctr_drbg_update env data st c).2.1.initialized = st.initialized ∧
      ((ctr_drbg_update env data st c).2.1.V = be_incr st.V ∨
        (ctr_drbg_update env data st c).2.1.V = be_incr (be_incr st.V) ∨
        (ctr_drbg_update env data st c).2.1.V = be_incr (be_incr (be_incr st.V)))) := by
  by_cases h0 : env.cipherFails c.cipherCalls = true
  · have e := update_go_3_fail0 env st c [] h0
    simp only [ctr_drbg_update, e]
    norm_num [h0]
  · have h0' : env.cipherFails c.cipherCalls = false := eq_false_of_ne_true h0
    by_cases h1 : env.cipherFails (c.cipherCalls + 1) = true
    · have e := update_go_3_fail1 env st c [] h0' h1
      simp only [ctr_drbg_update, e]
      norm_num [h0', h1]
    · have h1' : env.cipherFails (c.cipherCalls + 1) = false :=
        eq_false_of_ne_true h1
      by_cases h2 : env.cipherFails (c.cipherCalls + 2) = true
      · have e := update_go_3_fail2 env st c [] h0' h1' h2
        simp only [ctr_drbg_update, e]
        norm_num [h0', h1', h2]
      · have h2' : env.cipherFails (c.cipherCalls + 2) = false :=
          eq_false_of_ne_true h2
        have e := update_go_3 env st c [] h0' h1' h2'
        simp only [ctr_drbg_update, e]
        norm_num [h0', h1', h2']

/-- The output loop fails (with -1) as soon as any block-cipher call in its
range fails. -/
theorem gen_loop_fail (env : Env) (blocks : Nat) :
    ∀ (size : Nat) (st : PrngState) (c : Ctrs) (out : List Nat),
      (size + 15) / 16 ≤ blocks →
      (∃ j, j < (size + 15) / 16 ∧ env.cipherFails (c.cipherCalls + j) = true) →
      (gen_loop env blocks size st c out).1 = -1 := by
  induction blocks with
  | zero =>
    intro size st c out hb hex
    obtain ⟨j, hj, _⟩ := hex
    omega
  | succ n ih =>
    intro size st c out hb hex
    obtain ⟨j, hj, hfail⟩ := hex
    have hs : 0 < size := by
      by_contra hz
      have hz2 : size = 0 := by omega
      subst hz2
      omega
    by_cases h0 : env.cipherFails c.cipherCalls = true
    · simp only [gen_loop, hs, if_true, cm_aes_ecb_call, h0]
    · have h0' : env.cipherFails c.cipherCalls = false := eq_false_of_ne_true h0
      have hj0 : j ≠ 0 := by
        intro hz
        subst hz
        simp only [Nat.add_zero] at hfail
        rw [hfail] at h0'
        simp at h0'
      simp only [gen_loop, hs, if_true, cm_aes_ecb_call, h0', Bool.false_eq_true,
        if_false]
      refine ih (size - min size 16) _ _ _ (by omega) ⟨j - 1, by omega, ?_⟩
      show env.cipherFails (c.cipherCalls + 1 + (j - 1)) = true
      rw [show c.cipherCalls + 1 + (j - 1) = c.cipherCalls + j from by omega]
      exact hfail

/-- A `get_random` call on an initialized generator below the reseed
interval returns the generic failure -1 whenever one of the block-cipher
calls in its range (output loop plus trailing update) fails. -/
theorem get_random_fail (env : Env) (st : PrngState) (c : Ctrs)
    (buf_null : Bool) (size : Nat)
    (hvalid : ¬ (0 < size ∧ buf_null = true))
    (hsize : size ≤ 65536)
    (hinit : st.initialized = true)
    (hrc : st.reseed_counter < 2 ^ 48)
    (hV : st.V.length = 16) (hwf : bytesWF st.V)
    (hex : ∃ j, j < (size + 15) / 16 + 3 ∧
      env.cipherFails (c.cipherCalls + j) = true) :
    (nrfx_cracen_ctr_drbg_get_random env st c buf_null size).ret = -1 := by
  simp only [nrfx_cracen_ctr_drbg_get_random, if_neg hvalid,
    if_neg (by omega : ¬ size > 65536), hinit]
  simp only [not_true, if_false, ne_eq, not_false_eq_true, if_true,
    if_neg (by omega : ¬ st.reseed_counter ≥ 2 ^ 48)]
  obtain ⟨j, hj, hfail⟩ := hex
  by_cases hcase : ∃ j2, j2 < (size + 15) / 16 ∧
      env.cipherFails (c.cipherCalls + j2) = true
  · have hg : (gen_loop env ((size + 15) / 16) size st c []).1 = -1 :=
      gen_loop_fail env _ size st c [] (Nat.le_refl _) hcase
    rw [if_pos (by rw [hg]; decide)]
  · have hjge : ∀ j2, j2 < (size + 15) / 16 →
        env.cipherFails (c.cipherCalls + j2) = false := by
      intro j2 hj2
      by_contra hne
      exact hcase ⟨j2, hj2, by
        cases hb : env.cipherFails (c.cipherCalls + j2) with
        | true => rfl
        | false => exact absurd hb hne⟩
    have hceil : (size + 15) / 16 ≤ j := by
      by_contra hlt
      exact hcase ⟨j, by omega, hfail⟩
    have hor : env.cipherFails (c.cipherCalls + (size + 15) / 16) = true ∨
        env.cipherFails (c.cipherCalls + (size + 15) / 16 + 1) = true ∨
        env.cipherFails (c.cipherCalls + (size + 15) / 16 + 2) = true := by
      have h3 : j = (size + 15) / 16 ∨ j = (size + 15) / 16 + 1 ∨
          j = (size + 15) / 16 + 2 := by omega
      rcases h3 with he | he | he
      · left
        rw [show c.cipherCalls + (size + 15) / 16 = c.cipherCalls + j from by
          omega]
        exact hfail
      · right; left
        rw [show c.cipherCalls + (size + 15) / 16 + 1 = c.cipherCalls + j from by
          omega]
        exact hfail
      · right; right
        rw [show c.cipherCalls + (size + 15) / 16 + 2 = c.cipherCalls + j from by
          omega]
        exact hfail
    have hu := (ctr_drbg_update_fail_iff env none
      { st with V := (nist_gen_blocks env.aes st.key ((size + 15) / 16) size st.V).2 }
      { c with cipherCalls := c.cipherCalls + (size + 15) / 16 }).1.mpr hor
    rw [gen_loop_ok env ((size + 15) / 16) size st c [] (Nat.le_refl _) hV hwf
      hjge]
    simp [hu]

/-- Success path of `get_random` when the reseed counter has reached the
reseed interval: exactly one reseed (one entropy acquisition) happens before
any output block is produced, and the reseed counter reads 2 afterwards
(1 from the reseed, +1 from the generate call). -/
theorem get_random_ok_reseed (env : Env) (st : PrngState) (c : Ctrs)
    (buf_null : Bool) (size : Nat)
    (hvalid : ¬ (0 < size ∧ buf_null = true))
    (hsize : size ≤ 65536)
    (hinit : st.initialized = true)
    (hrc : st.reseed_counter ≥ 2 ^ 48)
    (hV : st.V.length = 16) (hwf : bytesWF st.V)
    (he : env.entropyFails c.entropyCalls = false)
    (hf : ∀ j, j < (size + 15) / 16 + 6 →
      env.cipherFails (c.cipherCalls + j) = false) :
    nrfx_cracen_ctr_drbg_get_random env st c buf_null size =
      { ret := 0,
        st := { st with
          key := (nist_generate env.aes
            (nist_update env.aes (some (fixBytes 48 (env.entropy c.entropyCalls)))
              st.key st.V).1
            (nist_update env.aes (some (fixBytes 48 (env.entropy c.entropyCalls)))
              st.key st.V).2 1 size).2.1,
          V := (nist_generate env.aes
            (nist_update env.aes (some (fixBytes 48 (env.entropy c.entropyCalls)))
              st.key st.V).1
            (nist_update env.aes (some (fixBytes 48 (env.entropy c.entropyCalls)))
              st.key st.V).2 1 size).2.2.1,
          reseed_counter := 2 },
        c := ⟨c.cipherCalls + ((size + 15) / 16 + 6), c.entropyCalls + 1⟩,
        out := (nist_generate env.aes
          (nist_update env.aes (some (fixBytes 48 (env.entropy c.entropyCalls)))
            st.key st.V).1
          (nist_update env.aes (some (fixBytes 48 (env.entropy c.entropyCalls)))
            st.key st.V).2 1 size).1 } := by
  have hres := reseed_ok env st c hV hwf he
    (by have h := hf 0 (by omega); simpa using h)
    (hf 1 (by omega)) (hf 2 (by omega))
  have hVu := nist_update_V_wf env.aes
    (some (fixBytes 48 (env.entropy c.entropyCalls))) st.key st.V
    (fun d hd => by cases hd; exact length_fixBytes 48 _)
  have hgl := gen_loop_ok env ((size + 15) / 16) size
    { st with
      key := (nist_update env.aes (some (fixBytes 48 (env.entropy c.entropyCalls)))
        st.key st.V).1,
      V := (nist_update env.aes (some (fixBytes 48 (env.entropy c.entropyCalls)))
        st.key st.V).2,
      reseed_counter := 1 }
    ⟨c.cipherCalls + 3, c.entropyCalls + 1⟩ []
    (Nat.le_refl _) hVu.1 hVu.2
    (fun j hj => by
      show env.cipherFails (c.cipherCalls + 3 + j) = false
      rw [show c.cipherCalls + 3 + j = c.cipherCalls + (3 + j) from by omega]
      exact hf (3 + j) (by omega))
  have hVg := nist_gen_blocks_V_wf env.aes
    (nist_update env.aes (some (fixBytes 48 (env.entropy c.entropyCalls)))
      st.key st.V).1 ((size + 15) / 16) size
    (nist_update env.aes (some (fixBytes 48 (env.entropy c.entropyCalls)))
      st.key st.V).2 hVu.1 hVu.2
  have hup := ctr_drbg_update_ok env none
    { st with
      key := (nist_update env.aes (some (fixBytes 48 (env.entropy c.entropyCalls)))
        st.key st.V).1,
      V := (nist_gen_blocks env.aes
        (nist_update env.aes (some (fixBytes 48 (env.entropy c.entropyCalls)))
          st.key st.V).1 ((size + 15) / 16) size
        (nist_update env.aes (some (fixBytes 48 (env.entropy c.entropyCalls)))
          st.key st.V).2).2,
      reseed_counter := 1 }
    ⟨c.cipherCalls + 3 + (size + 15) / 16, c.entropyCalls + 1⟩
    hVg.1 hVg.2
    (by
      show env.cipherFails (c.cipherCalls + 3 + (size + 15) / 16) = false
      rw [show c.cipherCalls + 3 + (size + 15) / 16 =
        c.cipherCalls + (3 + (size + 15) / 16) from by omega]
      exact hf (3 + (size + 15) / 16) (by omega))
    (by
      show env.cipherFails (c.cipherCalls + 3 + (size + 15) / 16 + 1) = false
      rw [show c.cipherCalls + 3 + (size + 15) / 16 + 1 =
        c.cipherCalls + (3 + (size + 15) / 16 + 1) from by omega]
      exact hf (3 + (size + 15) / 16 + 1) (by omega))
    (by
      show env.cipherFails (c.cipherCalls + 3 + (size + 15) / 16 + 2) = false
      rw [show c.cipherCalls + 3 + (size + 15) / 16 + 2 =
        c.cipherCalls + (3 + (size + 15) / 16 + 2) from by omega]
      exact hf (3 + (size + 15) / 16 + 2) (by omega))
  simp only [nrfx_cracen_ctr_drbg_get_random, if_neg hvalid,
    if_neg (by omega : ¬ size > 65536), hinit]
  simp only [not_true, if_false, ne_eq, not_false_eq_true, if_true,
    if_pos (by omega : st.reseed_counter ≥ 2 ^ 48)]
  rw [hres]
  simp only [List.nil_append]
  rw [hgl]
  simp only [List.nil_append]
  rw [hup]
  have hc6 : c.cipherCalls + 3 + (size + 15) / 16 + 3 =
      c.cipherCalls + ((size + 15) / 16 + 6) := by omega
  simp [nist_generate, hc6, hinit]

/-! ## Counter-value lemmas -/

theorem leVal_lt (l : List Nat) (h : bytesWF l) : leVal l < 2 ^ (8 * l.length) := by
  induction l with
  | nil => simp [leVal]
  | cons b r ih =>
    have hb : b < 256 := h b (List.mem_cons_self _ _)
    have hr := ih (fun x hx => h x (List.mem_cons_of_mem _ hx))
    simp only [leVal, List.length_cons]
    have : (2 : Nat) ^ (8 * (r.length + 1)) = 256 * 2 ^ (8 * r.length) := by
      rw [show 8 * (r.length + 1) = 8 + 8 * r.length by ring, pow_add]
      norm_num
    rw [this]
    omega

theorem beVal_lt (v : List Nat) (h : bytesWF v) : beVal v < 2 ^ (8 * v.length) := by
  have := leVal_lt v.reverse (bytesWF_reverse v h)
  rwa [List.length_reverse] at this

/-- During the NIST output phase the counter block advances by exactly one
per 16-byte block produced: after `(size + 15) / 16` blocks it reads the
initial value plus the block count, modulo `2 ^ 128`. -/
theorem beVal_nist_gen_blocks (E : List Nat → List Nat → List Nat)
    (key : List Nat) (blocks : Nat) :
    ∀ (size : Nat) (V : List Nat), V.length = 16 → bytesWF V →
      (size + 15) / 16 ≤ blocks →
      beVal (nist_gen_blocks E key blocks size V).2 =
        (beVal V + (size + 15) / 16) % 2 ^ 128 := by
  induction blocks with
  | zero =>
    intro size V hV hwf hb
    have hz : size = 0 := by omega
    subst hz
    have hlt : beVal V < 2 ^ 128 := by
      have := beVal_lt V hwf
      rwa [hV, show 8 * 16 = 128 from by norm_num] at this
    simp only [nist_gen_blocks]
    omega
  | succ n ih =>
    intro size V hV hwf hb
    by_cases hs : 0 < size
    · simp only [nist_gen_blocks, hs, if_true]
      rw [ih (size - min size 16) (specIncr V) (length_specIncr V)
        (bytesWF_specIncr V) (by omega), beVal_specIncr, Nat.mod_add_mod,
        show beVal V + 1 + (size - min size 16 + 15) / 16 =
          beVal V + (size + 15) / 16 from by omega]
    · have hz : size = 0 := by omega
      subst hz
      have hlt : beVal V < 2 ^ 128 := by
        have := beVal_lt V hwf
        rwa [hV, show 8 * 16 = 128 from by norm_num] at this
      simp only [nist_gen_blocks, hs, if_false]
      omega

/-! ## TRNG lemmas -/

theorem length_word_bytes_le (w k : Nat) : (word_bytes_le w k).length = k := by
  induction k generalizing w with
  | zero => rfl
  | succ n ih => simp [word_bytes_le, ih]

theorem word_bytes_le_take (n : Nat) :
    ∀ (k w : Nat), k ≤ n → (word_bytes_le w n).take k = word_bytes_le w k := by
  induction n with
  | zero =>
    intro k w hk
    have : k = 0 := by omega
    subst this
    rfl
  | succ n ih =>
    intro k w hk
    cases k with
    | zero => rfl
    | succ m =>
      simp only [word_bytes_le, List.take_succ_cons]
      rw [ih m (w / 256) (by omega)]

/-- The drain loop of `cracen_trng_get` pops exactly `(size + 3) / 4` words
and emits the first `size` bytes of their least-significant-byte-first
serialization. -/
theorem trng_drain_eq (fifo : List Nat) :
    ∀ (size : Nat), (size + 3) / 4 ≤ fifo.length →
      trng_drain fifo size =
        ((words_bytes (fifo.take ((size + 3) / 4))).take size,
          fifo.drop ((size + 3) / 4)) := by
  induction fifo with
  | nil =>
    intro size h
    have hz : size = 0 := by
      simp only [List.length_nil] at h
      omega
    subst hz
    rfl
  | cons w rest ih =>
    intro size h
    cases hs : size with
    | zero => rfl
    | succ m =>
      have hle : (m + 1 - min (m + 1) 4 + 3) / 4 ≤ rest.length := by
        simp only [List.length_cons] at h
        omega
      have hceil : (m + 1 + 3) / 4 = (m + 1 - min (m + 1) 4 + 3) / 4 + 1 := by
        omega
      have hsub : m + 1 - 4 = m + 1 - min (m + 1) 4 := by omega
      have hk4 : (word_bytes_le w 4).take (m + 1) =
          word_bytes_le w (min (m + 1) 4) := by
        by_cases h4 : m + 1 ≤ 4
        · rw [show min (m + 1) 4 = m + 1 from by omega]
          exact word_bytes_le_take 4 (m + 1) w h4
        · rw [show min (m + 1) 4 = 4 from by omega]
          exact List.take_of_length_le (by rw [length_word_bytes_le]; omega)
      simp only [trng_drain]
      rw [ih (m + 1 - min (m + 1) 4) hle, hceil]
      simp only [List.take_succ_cons, List.drop_succ_cons, words_bytes,
        List.take_append_eq_append_take, length_word_bytes_le, hk4, hsub]

/-! ## CryptoMaster and entropy-loop lemmas -/

theorem check_done_cases (s : CmStatus) :
    cracen_cm_check_done s = -2 ∨ cracen_cm_check_done s = -1 ∨
      cracen_cm_check_done s = 0 := by
  unfold cracen_cm_check_done
  by_cases h1 : s.errPending = true
  · simp [h1]
  · by_cases h2 : s.busy = true
    · simp [eq_false_of_ne_true h1, h2]
    · simp [eq_false_of_ne_true h1, eq_false_of_ne_true h2]

theorem cm_poll_loop_some (polls : Nat → CmStatus) (fuel : Nat) :
    ∀ (i : Nat) (r : Int), cm_poll_loop polls fuel i = some r →
      r = 0 ∨ r = -2 := by
  induction fuel with
  | zero =>
    intro i r h
    simp [cm_poll_loop] at h
  | succ n ih =>
    intro i r h
    simp only [cm_poll_loop] at h
    by_cases hc : cracen_cm_check_done (polls i) = -1
    · rw [if_pos hc] at h
      exact ih (i + 1) r h
    · rw [if_neg hc] at h
      obtain rfl : cracen_cm_check_done (polls i) = r := Option.some.inj h
      rcases check_done_cases (polls i) with h2 | h2 | h2
      · right; exact h2
      · exact absurd h2 hc
      · left; exact h2

theorem cm_enabled_after_append (a b : List CmOp) (s : Bool) :
    cm_enabled_after (a ++ b) s = cm_enabled_after b (cm_enabled_after a s) := by
  induction a generalizing s with
  | nil => rfl
  | cons op rest ih => simp [cm_enabled_after, ih]

/-- No sequence of completed `nrfx_cracen_cm_aes_ecb` calls leaves the
CryptoMaster module enabled. -/
theorem drbg_cm_trace_disabled (pollsFor : Nat → Nat → CmStatus) (fuel : Nat) :
    ∀ (n i : Nat),
      cm_enabled_after (drbg_cm_trace pollsFor fuel i n) false = false := by
  intro n
  induction n with
  | zero => intro i; rfl
  | succ m ih =>
    intro i
    simp only [drbg_cm_trace, cm_enabled_after_append]
    cases h : cm_poll_loop (pollsFor i) fuel 0 with
    | none => simpa [h] using ih (i + 1)
    | some r => simpa [h, cm_enabled_after] using ih (i + 1)

/-- `nrfx_cracen_rng_get_entropy` returns only success or the oversized
code; within the bound it can only return success. -/
theorem get_entropy_some (evolve : Nat → TrngHw → TrngHw) (fuel : Nat)
    (hw : TrngHw) (size : Nat) (r : Int) (hw2 : TrngHw) (out : List Nat)
    (tr : List TrngOp)
    (h : nrfx_cracen_rng_get_entropy evolve fuel hw size =
      some (r, hw2, out, tr)) :
    (r = TRNG_OK ∨ r = ERR_TOO_BIG) ∧
      (size ≤ (FIFOTHRESHOLD_ResetValue + 1) * 16 → r = TRNG_OK) := by
  unfold nrfx_cracen_rng_get_entropy at h
  by_cases hsz : size > (FIFOTHRESHOLD_ResetValue + 1) * 16
  · rw [if_pos hsz] at h
    simp only [Option.some.injEq, Prod.mk.injEq] at h
    obtain ⟨h1, -⟩ := h
    subst h1
    exact ⟨Or.inr rfl, fun hle => absurd hle (by omega)⟩
  · rw [if_neg hsz] at h
    cases hloop : get_entropy_loop evolve fuel 0 TRNG_RESET_NEEDED false hw size
      [TrngOp.moduleEnable] with
    | none => rw [hloop] at h; cases h
    | some res =>
      rw [hloop] at h
      simp only [Option.some.injEq, Prod.mk.injEq] at h
      obtain ⟨h1, -⟩ := h
      subst h1
      exact ⟨Or.inl rfl, fun _ => rfl⟩

/-- An iteration of the entropy retry loop entered in the reset-needed state
(as after an `ERROR` FSM reading, and on entry) first performs the full
reinitialization — clearing the conditioning-key flag, soft-resetting the
hardware and reprogramming off-timer, clock divider, startup wait count and
blocks-per-cycle — before polling again. -/
theorem get_entropy_loop_reset (evolve : Nat → TrngHw → TrngHw) (fuel i : Nat)
    (ck : Bool) (hw : TrngHw) (size : Nat) (tr : List TrngOp) :
    get_entropy_loop evolve (fuel + 1) i TRNG_RESET_NEEDED ck hw size tr =
      (if (cracen_trng_get false
            (evolve i { fsm := TrngFsm.reset, fifo := [], keyRegs := hw.keyRegs })
            size).1 = TRNG_OK then
        some ((cracen_trng_get false
            (evolve i { fsm := TrngFsm.reset, fifo := [], keyRegs := hw.keyRegs })
            size).2.1,
          (cracen_trng_get false
            (evolve i { fsm := TrngFsm.reset, fifo := [], keyRegs := hw.keyRegs })
            size).2.2.1,
          (cracen_trng_get false
            (evolve i { fsm := TrngFsm.reset, fifo := [], keyRegs := hw.keyRegs })
            size).2.2.2,
          tr ++ [TrngOp.softReset, TrngOp.setOffTimer 0, TrngOp.setClkDiv 0,
                 TrngOp.setInitWait 512, TrngOp.ctrlEnable 4])
      else
        get_entropy_loop evolve fuel (i + 1)
          (cracen_trng_get false
            (evolve i { fsm := TrngFsm.reset, fifo := [], keyRegs := hw.keyRegs })
            size).1
          (cracen_trng_get false
            (evolve i { fsm := TrngFsm.reset, fifo := [], keyRegs := hw.keyRegs })
            size).2.1
          (cracen_trng_get false
            (evolve i { fsm := TrngFsm.reset, fifo := [], keyRegs := hw.keyRegs })
            size).2.2.1 size
          (tr ++ [TrngOp.softReset, TrngOp.setOffTimer 0, TrngOp.setClkDiv 0,
                  TrngOp.setInitWait 512, TrngOp.ctrlEnable 4])) := by
  rfl

/-! ## Claim theorems -/

/-- Claim C1: for every fixed 48-byte entropy input supplied by the Entropy
Source and a fault-free block cipher, `init()` followed by `generate(32)` is
deterministic (a pure function of the cipher and the entropy) and equals the
NIST CTR_DRBG (AES-256, no derivation function) reference: `update` produces
48 bytes by three times incrementing the counter block (as a big-endian
128-bit integer) and encrypting it under the current key, XORs the provided
data in, then commits the first 32 bytes as the new key and the next 16 as
the new counter block; `generate` produces output in 16-byte chunks by
incrementing the counter, encrypting it and copying `min(remaining, 16)`
bytes, then runs one final `update(None)` and increments the reseed
counter. -/
theorem c1_init_generate_matches_nist
    (E : List Nat → List Nat → List Nat) (ent : List Nat) :
    (nrfx_cracen_ctr_drbg_init (pureEnv E ent) ⟨0, 0⟩).1 = 0 ∧
    nrfx_cracen_ctr_drbg_get_random (pureEnv E ent)
      (nrfx_cracen_ctr_drbg_init (pureEnv E ent) ⟨0, 0⟩).2.1
      (nrfx_cracen_ctr_drbg_init (pureEnv E ent) ⟨0, 0⟩).2.2 false 32 =
      { ret := 0,
        st := { key := (nist_generate E (nist_instantiate E ent).1
                  (nist_instantiate E ent).2.1 1 32).2.1,
                V := (nist_generate E (nist_instantiate E ent).1
                  (nist_instantiate E ent).2.1 1 32).2.2.1,
                reseed_counter := (nist_generate E (nist_instantiate E ent).1
                  (nist_instantiate E ent).2.1 1 32).2.2.2,
                initialized := true },
        c := ⟨8, 1⟩,
        out := (nist_generate E (nist_instantiate E ent).1
          (nist_instantiate E ent).2.1 1 32).1 } := by
  have hi := init_ok (pureEnv E ent) ⟨0, 0⟩ rfl rfl rfl rfl
  have hVw := nist_update_V_wf E (some (fixBytes 48 ent)) (List.replicate 32 0)
    (List.replicate 16 0) (fun d hd => by cases hd; exact length_fixBytes 48 _)
  constructor
  · rw [hi]
  · rw [hi]
    rw [get_random_ok (pureEnv E ent)
      { key := (nist_instantiate (pureEnv E ent).aes
          ((pureEnv E ent).entropy 0)).1,
        V := (nist_instantiate (pureEnv E ent).aes
          ((pureEnv E ent).entropy 0)).2.1,
        reseed_counter := 1, initialized := true }
      ⟨0 + 3, 0 + 1⟩ false 32 (by simp) (by norm_num) rfl (by norm_num)
      hVw.1 hVw.2 (fun j hj => rfl)]
    simp only [pureEnv, nist_instantiate, nist_generate]
    norm_num

/-- Counterexample to claim C2: with the reseed counter at the interval
minus 1 (`2 ^ 48 - 1`), a `generate` call performs no reseed at all (zero
Entropy Source invocations), and the reseed counter reads `2 ^ 48` — not
2 — immediately after the call returns (the source triggers a reseed only
when the counter has already reached `2 ^ 48` at entry). -/
theorem c2_counterexample :
    (nrfx_cracen_ctr_drbg_get_random cEnv
      { cSt with reseed_counter := 2 ^ 48 - 1 } ⟨0, 0⟩ false 1).ret = 0 ∧
    (nrfx_cracen_ctr_drbg_get_random cEnv
      { cSt with reseed_counter := 2 ^ 48 - 1 } ⟨0, 0⟩ false 1).c.entropyCalls
      = 0 ∧
    (nrfx_cracen_ctr_drbg_get_random cEnv
      { cSt with reseed_counter := 2 ^ 48 - 1 } ⟨0, 0⟩ false 1).st.reseed_counter
      = 2 ^ 48 ∧
    ¬ (nrfx_cracen_ctr_drbg_get_random cEnv
      { cSt with reseed_counter := 2 ^ 48 - 1 } ⟨0, 0⟩ false 1).st.reseed_counter
      = 2 := by
  decide

/-- Claim C2 (amended): a generate request reseeds exactly when
`reseed_counter` has reached or exceeded the interval `2 ^ 48` at entry.
At interval minus 1 no reseed happens during that call (no Entropy Source
invocation) and the counter reads `2 ^ 48` after; with the counter at or
above the interval, the call performs exactly one reseed (exactly one extra
Entropy Source invocation) before producing output, and `reseed_counter`
reads 2 immediately after the call returns. -/
theorem c2_reseed_interval (env : Env) (st : PrngState) (c : Ctrs) (size : Nat)
    (hcf : ∀ i, env.cipherFails i = false)
    (hef : ∀ i, env.entropyFails i = false)
    (hinit : st.initialized = true)
    (hV : st.V.length = 16) (hwf : bytesWF st.V)
    (hs0 : 0 < size) (hs : size ≤ 65536) :
    (st.reseed_counter = 2 ^ 48 - 1 →
      (nrfx_cracen_ctr_drbg_get_random env st c false size).c.entropyCalls =
        c.entropyCalls ∧
      (nrfx_cracen_ctr_drbg_get_random env st c false size).st.reseed_counter =
        2 ^ 48) ∧
    (st.reseed_counter ≥ 2 ^ 48 →
      (nrfx_cracen_ctr_drbg_get_random env st c false size).ret = 0 ∧
      (nrfx_cracen_ctr_drbg_get_random env st c false size).c.entropyCalls =
        c.entropyCalls + 1 ∧
      (nrfx_cracen_ctr_drbg_get_random env st c false size).st.reseed_counter
        = 2) := by
  constructor
  · intro hrc
    rw [get_random_ok env st c false size (by simp) hs hinit (by omega) hV hwf
      (fun j hj => hcf _)]
    refine ⟨rfl, ?_⟩
    simp only [hrc]
    norm_num
  · intro hrc
    rw [get_random_ok_reseed env st c false size (by simp) hs hinit hrc hV hwf
      (hef _) (fun j hj => hcf _)]
    exact ⟨rfl, rfl, rfl⟩

/-- Witness for C2 (amended): at `reseed_counter = 2 ^ 48` the concrete
generator reseeds exactly once and the counter reads 2 afterwards. -/
theorem c2_reseed_interval_witness :
    (nrfx_cracen_ctr_drbg_get_random cEnv
      { cSt with reseed_counter := 2 ^ 48 } ⟨0, 0⟩ false 1).c.entropyCalls = 1 ∧
    (nrfx_cracen_ctr_drbg_get_random cEnv
      { cSt with reseed_counter := 2 ^ 48 } ⟨0, 0⟩ false 1).st.reseed_counter
      = 2 := by
  have h := (c2_reseed_interval cEnv { cSt with reseed_counter := 2 ^ 48 }
    ⟨0, 0⟩ 1 (fun _ => rfl) (fun _ => rfl) rfl (by decide) (by decide)
    (by decide) (by decide)).2 (by norm_num)
  exact ⟨h.2.1, h.2.2⟩

/-- Counterexample to claim C3: when the first block-cipher call fails,
`ctr_drbg_update` returns -1 but the generator state is not left unmodified:
the counter block `V` has already been incremented in place (the key is
untouched). -/
theorem c3_counterexample :
    (ctr_drbg_update cEnvF none cSt ⟨0, 0⟩).1 = -1 ∧
    ¬ (ctr_drbg_update cEnvF none cSt ⟨0, 0⟩).2.1.V = cSt.V ∧
    (ctr_drbg_update cEnvF none cSt ⟨0, 0⟩).2.1.key = cSt.key := by
  decide

/-- Claim C3 (amended): the internal update fails if and only if one of its
three block-cipher calls fails; on failure the key, the reseed counter and
the `initialized` flag are left unmodified (no partial commit of the new
key/counter values), but the counter block `V` keeps the in-place increments
performed before the failing call (one, two or three applications of
`be_incr`). -/
theorem c3_update_failure_atomicity (env : Env) (data : Option (List Nat))
    (st : PrngState) (c : Ctrs) :
    ((ctr_drbg_update env data st c).1 = -1 ↔
      (env.cipherFails c.cipherCalls = true ∨
        env.cipherFails (c.cipherCalls + 1) = true ∨
        env.cipherFails (c.cipherCalls + 2) = true)) ∧
    ((ctr_drbg_update env data st c).1 = -1 →
      (ctr_drbg_update env data st c).2.1.key = st.key ∧
      (ctr_drbg_update env data st c).2.1.reseed_counter = st.reseed_counter ∧
      (ctr_drbg_update env data st c).2.1.initialized = st.initialized ∧
      ((ctr_drbg_update env data st c).2.1.V = be_incr st.V ∨
        (ctr_drbg_update env data st c).2.1.V = be_incr (be_incr st.V) ∨
        (ctr_drbg_update env data st c).2.1.V =
          be_incr (be_incr (be_incr st.V)))) :=
  ctr_drbg_update_fail_iff env data st c

/-- Witness for C3 (amended): concrete failing update. -/
theorem c3_update_failure_atomicity_witness :
    (ctr_drbg_update cEnvF none cSt ⟨0, 0⟩).1 = -1 ∧
    (ctr_drbg_update cEnvF none cSt ⟨0, 0⟩).2.1.key = cSt.key := by
  have h := c3_update_failure_atomicity cEnvF none cSt ⟨0, 0⟩
  have hfail := h.1.mpr (Or.inl (by decide))
  exact ⟨hfail, (h.2 hfail).1⟩

/-- Return code of a valid-input `get_random` call: 0 or -1. -/
theorem get_random_ret_valid (env : Env) (st : PrngState) (c : Ctrs)
    (buf_null : Bool) (size : Nat)
    (h1 : ¬ (0 < size ∧ buf_null = true)) (h2 : ¬ size > 65536) :
    (nrfx_cracen_ctr_drbg_get_random env st c buf_null size).ret = 0 ∨
      (nrfx_cracen_ctr_drbg_get_random env st c buf_null size).ret = -1 := by
  simp only [nrfx_cracen_ctr_drbg_get_random, if_neg h1, if_neg h2]
  repeat' split
  all_goals simp

/-- Claim C4: `get_random` rejects, with the distinct invalid-input code -2
and before any hardware interaction or state change, exactly the calls where
`size` exceeds 65536 or where `size > 0` with a null destination;
`generate(65536)` is not rejected by these checks; the return value is 0 on
success, -2 only for the two invalid-input cases, and -1 for every other
failure. -/
theorem c4_invalid_input (env : Env) (st : PrngState) (c : Ctrs)
    (buf_null : Bool) (size : Nat) :
    ((nrfx_cracen_ctr_drbg_get_random env st c buf_null size).ret = -2 ↔
      ((0 < size ∧ buf_null = true) ∨ size > 65536)) ∧
    (((0 < size ∧ buf_null = true) ∨ size > 65536) →
      nrfx_cracen_ctr_drbg_get_random env st c buf_null size =
        { ret := -2, st := st, c := c, out := [] }) ∧
    ((nrfx_cracen_ctr_drbg_get_random env st c buf_null size).ret = 0 ∨
      (nrfx_cracen_ctr_drbg_get_random env st c buf_null size).ret = -1 ∨
      (nrfx_cracen_ctr_drbg_get_random env st c buf_null size).ret = -2) := by
  by_cases hinv : (0 < size ∧ buf_null = true) ∨ size > 65536
  · have heval : nrfx_cracen_ctr_drbg_get_random env st c buf_null size =
        { ret := -2, st := st, c := c, out := [] } := by
      by_cases ha : 0 < size ∧ buf_null = true
      · simp only [nrfx_cracen_ctr_drbg_get_random, if_pos ha]
      · have hb : size > 65536 := by tauto
        simp only [nrfx_cracen_ctr_drbg_get_random, if_neg ha, if_pos hb]
    rw [heval]
    exact ⟨⟨fun _ => hinv, fun _ => rfl⟩, fun _ => rfl, Or.inr (Or.inr rfl)⟩
  · have ha : ¬ (0 < size ∧ buf_null = true) := fun h => hinv (Or.inl h)
    have hb : ¬ size > 65536 := fun h => hinv (Or.inr h)
    rcases get_random_ret_valid env st c buf_null size ha hb with h | h
    · rw [h]
      exact ⟨⟨fun hc => absurd hc (by decide), fun hc => absurd hc hinv⟩,
        fun hc => absurd hc hinv, Or.inl rfl⟩
    · rw [h]
      exact ⟨⟨fun hc => absurd hc (by decide), fun hc => absurd hc hinv⟩,
        fun hc => absurd hc hinv, Or.inr (Or.inl rfl)⟩

/-- Witness for C4: `generate(65537)` is rejected with -2 and
`generate(65536)` is not rejected by the input checks. -/
theorem c4_invalid_input_witness :
    (nrfx_cracen_ctr_drbg_get_random cEnv cSt ⟨0, 0⟩ false 65537).ret = -2 ∧
    ¬ (nrfx_cracen_ctr_drbg_get_random cEnv cSt ⟨0, 0⟩ false 65536).ret = -2 := by
  constructor
  · exact (c4_invalid_input cEnv cSt ⟨0, 0⟩ false 65537).1.mpr
      (Or.inr (by norm_num))
  · intro h
    have := (c4_invalid_input cEnv cSt ⟨0, 0⟩ false 65536).1.mp h
    simp at this

/-- Counterexample to claim C5: on an initialized generator,
`generate(0, null)` does return success and writes zero bytes, but it is not
free of hardware interaction or state change: it performs the trailing
backtracking-resistance update — three block-cipher calls — and changes the
generator state (key, counter block and reseed counter). -/
theorem c5_counterexample :
    (nrfx_cracen_ctr_drbg_get_random cEnv cSt ⟨0, 0⟩ true 0).ret = 0 ∧
    (nrfx_cracen_ctr_drbg_get_random cEnv cSt ⟨0, 0⟩ true 0).out = [] ∧
    (nrfx_cracen_ctr_drbg_get_random cEnv cSt ⟨0, 0⟩ true 0).c.cipherCalls
      = 3 ∧
    ¬ (nrfx_cracen_ctr_drbg_get_random cEnv cSt ⟨0, 0⟩ true 0).st = cSt := by
  decide

/-- Claim C5 (amended): `generate(0, null)` passes the input checks, returns
success and writes zero bytes; but (on an initialized generator below the
reseed interval, with a fault-free cipher) it still performs the trailing
`update(None)` — three block-cipher calls committing a fresh key and counter
block — and increments the reseed counter; no entropy is acquired. -/
theorem c5_generate_zero (env : Env) (st : PrngState) (c : Ctrs)
    (hinit : st.initialized = true) (hrc : st.reseed_counter < 2 ^ 48)
    (hV : st.V.length = 16) (hwf : bytesWF st.V)
    (hf : ∀ j, j < 3 → env.cipherFails (c.cipherCalls + j) = false) :
    nrfx_cracen_ctr_drbg_get_random env st c true 0 =
      { ret := 0,
        st := { st with
          key := (nist_update env.aes none st.key st.V).1,
          V := (nist_update env.aes none st.key st.V).2,
          reseed_counter := (st.reseed_counter + 1) % 2 ^ 64 },
        c := { c with cipherCalls := c.cipherCalls + 3 },
        out := [] } := by
  rw [get_random_ok env st c true 0 (by simp) (by norm_num) hinit hrc hV hwf
    (fun j hj => hf j (by omega))]
  norm_num [nist_generate, nist_gen_blocks]

/-- Witness for C5 (amended): concrete zero-size call. -/
theorem c5_generate_zero_witness :
    (nrfx_cracen_ctr_drbg_get_random cEnv cSt ⟨0, 0⟩ true 0).ret = 0 ∧
    (nrfx_cracen_ctr_drbg_get_random cEnv cSt ⟨0, 0⟩ true 0).c.cipherCalls
      = 3 := by
  have h := c5_generate_zero cEnv cSt ⟨0, 0⟩ rfl (by decide) (by decide)
    (by decide) (fun j hj => rfl)
  rw [h]
  exact ⟨rfl, rfl⟩

/-- Counterexample to claim C6: with a block cipher that always outputs the
all-zero block, a `generate(16)` call from counter 0 produces one 16-byte
output block, yet the counter block afterwards reads 0 again — the trailing
update consumed three blocks (not one) and then replaced the counter block
with cipher output, so across generate calls the counter does not strictly
increase by one per block produced. -/
theorem c6_counterexample :
    (nrfx_cracen_ctr_drbg_get_random cEnvZ cSt ⟨0, 0⟩ false 16).ret = 0 ∧
    (nrfx_cracen_ctr_drbg_get_random cEnvZ cSt ⟨0, 0⟩ false 16).out.length
      = 16 ∧
    (nrfx_cracen_ctr_drbg_get_random cEnvZ cSt ⟨0, 0⟩ false 16).c.cipherCalls
      = 4 ∧
    beVal (nrfx_cracen_ctr_drbg_get_random cEnvZ cSt ⟨0, 0⟩ false 16).st.V =
      beVal cSt.V ∧
    ¬ beVal (nrfx_cracen_ctr_drbg_get_random cEnvZ cSt ⟨0, 0⟩ false 16).st.V =
      (beVal cSt.V + 2) % 2 ^ 128 ∧
    ¬ beVal (nrfx_cracen_ctr_drbg_get_random cEnvZ cSt ⟨0, 0⟩ false 16).st.V =
      (beVal cSt.V + 4) % 2 ^ 128 := by
  decide

/-- Claim C6 (amended): `be_incr` increments the counter block as one
big-endian 128-bit integer wrapping at `2 ^ 128`; within a single `generate`
call (without reseed) the counter advances by exactly one per 16-byte output
block — after the output phase it reads the initial value plus
`(size + 15) / 16` modulo `2 ^ 128` — and the trailing backtracking-
resistance update consumes three further blocks (`(size + 15) / 16 + 3`
block-cipher calls in total), after which it replaces the counter block with
committed cipher output, so the arithmetic progression does not continue
across calls. -/
theorem c6_counter_increment :
    (∀ v : List Nat, bytesWF v → v.length = 16 →
      beVal (be_incr v) = (beVal v + 1) % 2 ^ 128) ∧
    (∀ (env : Env) (st : PrngState) (c : Ctrs) (size : Nat),
      st.initialized = true → st.reseed_counter < 2 ^ 48 →
      st.V.length = 16 → bytesWF st.V → size ≤ 65536 →
      (∀ i, env.cipherFails i = false) →
      beVal (nist_gen_blocks env.aes st.key ((size + 15) / 16) size st.V).2 =
        (beVal st.V + (size + 15) / 16) % 2 ^ 128 ∧
      (nrfx_cracen_ctr_drbg_get_random env st c false size).c.cipherCalls =
        c.cipherCalls + ((size + 15) / 16 + 3) ∧
      (nrfx_cracen_ctr_drbg_get_random env st c false size).st.V =
        (nist_update env.aes none st.key
          (nist_gen_blocks env.aes st.key ((size + 15) / 16) size st.V).2).2) := by
  constructor
  · intro v hwf hl
    rw [be_incr_eq_specIncr v hwf hl, beVal_specIncr]
  · intro env st c size hinit hrc hV hwf hsize hcf
    refine ⟨beVal_nist_gen_blocks env.aes st.key _ size st.V hV hwf
      (Nat.le_refl _), ?_, ?_⟩
    · rw [get_random_ok env st c false size (by simp) hsize hinit hrc hV hwf
        (fun j hj => hcf _)]
    · rw [get_random_ok env st c false size (by simp) hsize hinit hrc hV hwf
        (fun j hj => hcf _)]
      simp [nist_generate]

/-- Witness for C6 (amended): the increment lemma at a concrete counter
block and the per-call counts at a concrete generator. -/
theorem c6_counter_increment_witness :
    beVal (be_incr (List.replicate 16 255)) =
      (beVal (List.replicate 16 255) + 1) % 2 ^ 128 ∧
    (nrfx_cracen_ctr_drbg_get_random cEnv cSt ⟨0, 0⟩ false 32).c.cipherCalls
      = 5 := by
  constructor
  · exact (c6_counter_increment).1 (List.replicate 16 255) (by decide)
      (by decide)
  · have h := ((c6_counter_increment).2 cEnv cSt ⟨0, 0⟩ 32 rfl (by decide)
      (by decide) (by decide) (by norm_num) (fun _ => rfl)).2.1
    rw [h]

/-- Claim C7: with the noise generator `READY`, the first 4 FIFO words
drained after (re)initialization (conditioning flag still clear) program the
conditioning key registers — exactly once, and those words are never
returned as entropy — and once the FIFO further holds at least
`(size + 3) / 4` words the driver drains exactly that many 4-byte words,
emitting the bytes of each word least-significant byte first, and returns
success; with the conditioning flag already set, no further key programming
happens. -/
theorem c7_conditioning_key_and_drain (hw : TrngHw) (size : Nat)
    (hfsm : hw.fsm = TrngFsm.ready)
    (hlevel : 4 + (size + 3) / 4 ≤ hw.fifo.length) :
    cracen_trng_get false hw size =
      (TRNG_OK, true,
        { fsm := hw.fsm,
          fifo := (hw.fifo.drop 4).drop ((size + 3) / 4),
          keyRegs := hw.keyRegs ++ (List.range 4).zip (hw.fifo.take 4) },
        (words_bytes ((hw.fifo.drop 4).take ((size + 3) / 4))).take size) ∧
    cracen_trng_get true hw size =
      (TRNG_OK, true, { hw with fifo := hw.fifo.drop ((size + 3) / 4) },
        (words_bytes (hw.fifo.take ((size + 3) / 4))).take size) := by
  obtain ⟨f, fifo, kr⟩ := hw
  simp only at hfsm hlevel
  subst hfsm
  constructor
  · simp only [cracen_trng_get, cracen_trng_setup_conditioning_key]
    rw [if_neg (by simp only [List.length_cons]; omega :
      ¬ (({ fsm := TrngFsm.ready, fifo := fifo, keyRegs := kr } :
        TrngHw).fifo.length < 4))]
    simp only [Bool.false_eq_true, not_false_eq_true, if_true, ne_eq,
      not_true, if_false]
    rw [if_neg (by simp only [List.length_drop]; omega)]
    rw [trng_drain_eq (fifo.drop 4) size (by
      simp only [List.length_drop]
      omega)]
  · simp only [cracen_trng_get]
    simp only [Bool.true_eq_false, not_true, if_false, ne_eq,
      not_false_eq_true, if_true, eq_self_iff_true]
    rw [if_neg (by omega : ¬ size > fifo.length * 4)]
    rw [trng_drain_eq fifo size (by omega)]

/-- Witness for C7: concrete ready hardware with 20 FIFO words serving a
48-byte request. -/
theorem c7_conditioning_key_and_drain_witness :
    cracen_trng_get false
      { fsm := TrngFsm.ready, fifo := List.range 20, keyRegs := [] } 48 =
      (TRNG_OK, true,
        { fsm := TrngFsm.ready, fifo := [16, 17, 18, 19],
          keyRegs := [(0, 0), (1, 1), (2, 2), (3, 3)] },
        (words_bytes ((List.range 20).drop 4 |>.take 12)).take 48) := by
  have h := (c7_conditioning_key_and_drain
    { fsm := TrngFsm.ready, fifo := List.range 20, keyRegs := [] } 48 rfl
    (by decide)).1
  rw [h]
  decide

/-- Counterexample to claim C8: while the FSM is in `STARTUP` the operation
does not wait — with enough FIFO words available, `cracen_trng_get` drains
and returns success exactly as in `READY` (the source falls through the
`STARTUP` case into the default branch). -/
theorem c8_counterexample :
    (cracen_trng_get false cHw 4).1 = TRNG_OK ∧
    (cracen_trng_get false cHw 4).2.2.2 = [4, 0, 0, 0] ∧
    (cracen_trng_get false cHw 4).2.2.1.fifo.length = 11 := by
  decide

/-- Claim C8 (amended): `get_entropy` surfaces an error to the caller only
for an oversized request, checked before engaging the hardware; in `RESET`,
or when the FIFO holds fewer words than needed, it waits (polls) rather than
failing or draining (in `STARTUP`, however, it proceeds exactly as in
`READY`); on an entropy-quality `ERROR` it requests a reset and the retry
loop fully reinitializes the hardware — soft reset plus reprogramming the
off-timer, clock divider, startup wait count and blocks-per-cycle — and
retries transparently: the caller sees only success or the oversized
error. -/
theorem c8_entropy_error_handling :
    (∀ (evolve : Nat → TrngHw → TrngHw) (fuel : Nat) (hw : TrngHw)
       (size : Nat), size > (FIFOTHRESHOLD_ResetValue + 1) * 16 →
      nrfx_cracen_rng_get_entropy evolve fuel hw size =
        some (ERR_TOO_BIG, hw, [], [])) ∧
    (∀ (ck : Bool) (hw : TrngHw) (size : Nat), hw.fsm = TrngFsm.reset →
      cracen_trng_get ck hw size = (HW_PROCESSING, ck, hw, [])) ∧
    (∀ (hw : TrngHw) (size : Nat), hw.fsm = TrngFsm.ready →
      size > hw.fifo.length * 4 →
      cracen_trng_get true hw size = (HW_PROCESSING, true, hw, [])) ∧
    (∀ (ck : Bool) (hw : TrngHw) (size : Nat), hw.fsm = TrngFsm.error →
      cracen_trng_get ck hw size = (TRNG_RESET_NEEDED, ck, hw, [])) ∧
    (∀ hw : TrngHw, cracen_trng_init hw =
      (false, { fsm := TrngFsm.reset, fifo := [], keyRegs := hw.keyRegs },
        [TrngOp.softReset, TrngOp.setOffTimer 0, TrngOp.setClkDiv 0,
         TrngOp.setInitWait 512, TrngOp.ctrlEnable 4])) ∧
    (∀ (evolve : Nat → TrngHw → TrngHw) (fuel : Nat) (hw : TrngHw)
       (size : Nat) (r : Int) (hw2 : TrngHw) (out : List Nat)
       (tr : List TrngOp),
      nrfx_cracen_rng_get_entropy evolve fuel hw size =
        some (r, hw2, out, tr) → r = TRNG_OK ∨ r = ERR_TOO_BIG) := by
  refine ⟨?_, ?_, ?_, ?_, fun hw => rfl, ?_⟩
  · intro evolve fuel hw size hsz
    unfold nrfx_cracen_rng_get_entropy
    rw [if_pos hsz]
  · intro ck hw size hfsm
    obtain ⟨f, fifo, kr⟩ := hw
    simp only at hfsm
    subst hfsm
    rfl
  · intro hw size hfsm hlevel
    obtain ⟨f, fifo, kr⟩ := hw
    simp only at hfsm hlevel
    subst hfsm
    simp only [cracen_trng_get]
    simp only [Bool.true_eq_false, not_true, if_false, ne_eq,
      not_false_eq_true, if_true, eq_self_iff_true]
    rw [if_pos hlevel]
  · intro ck hw size hfsm
    obtain ⟨f, fifo, kr⟩ := hw
    simp only at hfsm
    subst hfsm
    rfl
  · intro evolve fuel hw size r hw2 out tr h
    exact (get_entropy_some evolve fuel hw size r hw2 out tr h).1

/-- Witness for C8 (amended): a concrete oversized request is rejected with
-2 before any hardware operation, and a concrete `ERROR`-state poll requests
a reset. -/
theorem c8_entropy_error_handling_witness :
    nrfx_cracen_rng_get_entropy (fun _ hw => hw) 5
      { fsm := TrngFsm.ready, fifo := [], keyRegs := [] } 100 =
      some (ERR_TOO_BIG, { fsm := TrngFsm.ready, fifo := [], keyRegs := [] },
        [], []) ∧
    cracen_trng_get false { fsm := TrngFsm.error, fifo := [], keyRegs := [] }
      4 = (TRNG_RESET_NEEDED, false,
        { fsm := TrngFsm.error, fifo := [], keyRegs := [] }, []) := by
  constructor
  · exact (c8_entropy_error_handling).1 (fun _ hw => hw) 5
      { fsm := TrngFsm.ready, fifo := [], keyRegs := [] } 100
      (by norm_num [FIFOTHRESHOLD_ResetValue])
  · exact (c8_entropy_error_handling).2.2.2.1 false
      { fsm := TrngFsm.error, fifo := [], keyRegs := [] } 4 rfl

/-- Claim C9: every completed `nrfx_cracen_cm_aes_ecb` call, success or
failure, soft-resets the accelerator core and disables the module before
returning (its operation trace ends with the soft reset and the disable, and
leaves the module disabled), and its verdict is done (0) or DMA error (-2);
composed with the DRBG: a `generate` call whose `N`-th block-cipher
invocation reports a fetch/push error returns the generic failure -1, and no
sequence of completed accelerator calls leaves the module enabled. -/
theorem c9_accel_cleanup :
    (∀ (aes : List Nat → List Nat → List Nat) (polls : Nat → CmStatus)
       (fuel : Nat) (key input : List Nat) (r : Int) (out : List Nat)
       (tr : List CmOp),
      nrfx_cracen_cm_aes_ecb aes polls fuel key input = some (r, out, tr) →
        (∃ pre, tr = pre ++ [CmOp.softReset, CmOp.disable]) ∧
        cm_enabled_after tr true = false ∧
        cm_enabled_after tr false = false ∧ (r = 0 ∨ r = -2)) ∧
    (∀ (aes : List Nat → List Nat → List Nat)
       (pollsFor : Nat → Nat → CmStatus) (fuel : Nat)
       (entropy : Nat → List Nat) (entropyFails : Nat → Bool)
       (st : PrngState) (c : Ctrs) (size N : Nat),
      st.initialized = true → st.reseed_counter < 2 ^ 48 →
      st.V.length = 16 → bytesWF st.V → size ≤ 65536 →
      N < (size + 15) / 16 + 3 →
      (envOfCm aes pollsFor fuel entropy entropyFails).cipherFails
        (c.cipherCalls + N) = true →
      (nrfx_cracen_ctr_drbg_get_random
        (envOfCm aes pollsFor fuel entropy entropyFails) st c false
        size).ret = -1) ∧
    (∀ (pollsFor : Nat → Nat → CmStatus) (fuel n i : Nat),
      cm_enabled_after (drbg_cm_trace pollsFor fuel i n) false = false) := by
  refine ⟨?_, ?_, fun pollsFor fuel n i => drbg_cm_trace_disabled pollsFor
    fuel n i⟩
  · intro aes polls fuel key input r out tr h
    unfold nrfx_cracen_cm_aes_ecb at h
    cases hp : cm_poll_loop polls fuel 0 with
    | none => rw [hp] at h; cases h
    | some r2 =>
      rw [hp] at h
      simp only [Option.some.injEq, Prod.mk.injEq] at h
      obtain ⟨h1, -, h3⟩ := h
      subst h1
      subst h3
      refine ⟨⟨[CmOp.enable, CmOp.setFetchAddr, CmOp.setPushAddr,
        CmOp.setIndirect, CmOp.dmb, CmOp.start], rfl⟩, rfl, rfl, ?_⟩
      exact cm_poll_loop_some polls fuel 0 _ hp
  · intro aes pollsFor fuel entropy entropyFails st c size N hinit hrc hV hwf
      hsize hN hfail
    exact get_random_fail (envOfCm aes pollsFor fuel entropy entropyFails)
      st c false size (by simp) hsize hinit hrc hV hwf ⟨N, hN, hfail⟩

/-- Witness for C9: a concrete completed call's trace ends disabled, and a
concrete generator over an accelerator that always reports a fetch error
fails with -1. -/
theorem c9_accel_cleanup_witness :
    cm_enabled_after [CmOp.enable, CmOp.setFetchAddr, CmOp.setPushAddr,
      CmOp.setIndirect, CmOp.dmb, CmOp.start, CmOp.softReset, CmOp.disable]
      true = false ∧
    (nrfx_cracen_ctr_drbg_get_random
      (envOfCm (fun _ v => v) (fun _ _ => ⟨true, false⟩) 1
        (fun _ => List.range 48) (fun _ => false)) cSt ⟨0, 0⟩ false
      16).ret = -1 := by
  constructor
  · exact ((c9_accel_cleanup).1 (fun _ v => v) (fun _ => ⟨false, false⟩) 1
      (List.replicate 32 0) (List.replicate 16 0) 0
      (fixBytes 16 ((fun (_ v : List Nat) => v) (List.replicate 32 0)
        (List.replicate 16 0)))
      [CmOp.enable, CmOp.setFetchAddr, CmOp.setPushAddr, CmOp.setIndirect,
       CmOp.dmb, CmOp.start, CmOp.softReset, CmOp.disable] rfl).2.1
  · exact (c9_accel_cleanup).2.1 (fun _ v => v) (fun _ _ => ⟨true, false⟩) 1
      (fun _ => List.range 48) (fun _ => false) cSt ⟨0, 0⟩ 16 0 rfl
      (by decide) (by decide) (by decide) (by norm_num) (by norm_num)
      (by decide)

/-- Claim C10: `nrfx_cracen_rng_get_entropy` returns only 0 (success) or -2
(oversized request), never -1; every request within the FIFO-derived bound —
in particular the DRBG's fixed 48-byte seed request — can only complete with
success (the call blocks rather than failing), so the entropy-failure branch
of `cracen_ctr_drbg_reseed` is unreachable and a reseed with a fault-free
Entropy Source can fail only through a block-cipher failure inside the
update. -/
theorem c10_entropy_codes :
    (∀ (evolve : Nat → TrngHw → TrngHw) (fuel : Nat) (hw : TrngHw)
       (size : Nat) (r : Int) (hw2 : TrngHw) (out : List Nat)
       (tr : List TrngOp),
      nrfx_cracen_rng_get_entropy evolve fuel hw size =
        some (r, hw2, out, tr) →
        (r = TRNG_OK ∨ r = ERR_TOO_BIG) ∧ ¬ r = -1 ∧
        (size ≤ (FIFOTHRESHOLD_ResetValue + 1) * 16 → r = TRNG_OK)) ∧
    48 ≤ (FIFOTHRESHOLD_ResetValue + 1) * 16 ∧
    (∀ (env : Env) (st : PrngState) (c : Ctrs),
      env.entropyFails c.entropyCalls = false →
      (cracen_ctr_drbg_reseed env st c).1 = -1 →
        (env.cipherFails c.cipherCalls = true ∨
         env.cipherFails (c.cipherCalls + 1) = true ∨
         env.cipherFails (c.cipherCalls + 2) = true)) := by
  refine ⟨?_, by norm_num [FIFOTHRESHOLD_ResetValue], ?_⟩
  · intro evolve fuel hw size r hw2 out tr h
    have hs := get_entropy_some evolve fuel hw size r hw2 out tr h
    refine ⟨hs.1, ?_, hs.2⟩
    rcases hs.1 with h1 | h1
    · rw [h1]; decide
    · rw [h1]; decide
  · intro env st c hef h
    simp only [cracen_ctr_drbg_reseed, hef, Bool.false_eq_true, if_false]
      at h
    rcases update_ret env (some (fixBytes 48 (env.entropy c.entropyCalls))) st
      { c with entropyCalls := c.entropyCalls + 1 } with hu | hu
    · simp [hu] at h
    · have := (ctr_drbg_update_fail_iff env
        (some (fixBytes 48 (env.entropy c.entropyCalls))) st
        { c with entropyCalls := c.entropyCalls + 1 }).1.mp hu
      simpa using this

/-- Witness for C10: a concrete blocked-then-served 48-byte request returns
0, and a concrete all-failing cipher makes the reseed fail. -/
theorem c10_entropy_codes_witness :
    48 ≤ (FIFOTHRESHOLD_ResetValue + 1) * 16 ∧
    ((cracen_ctr_drbg_reseed cEnvF cSt ⟨0, 0⟩).1 = -1 →
      (cEnvF.cipherFails 0 = true ∨ cEnvF.cipherFails 1 = true ∨
        cEnvF.cipherFails 2 = true)) := by
  refine ⟨(c10_entropy_codes).2.1, ?_⟩
  intro h
  have := (c10_entropy_codes).2.2 cEnvF cSt ⟨0, 0⟩ rfl h
  simpa using this

/-- Witness for C1: the refinement evaluated at a concrete block cipher and
a concrete 48-byte entropy input. -/
theorem c1_init_generate_matches_nist_witness :
    (nrfx_cracen_ctr_drbg_init (pureEnv (fun _ v => v) (List.range 48))
      ⟨0, 0⟩).1 = 0 ∧
    (nrfx_cracen_ctr_drbg_get_random (pureEnv (fun _ v => v) (List.range 48))
      (nrfx_cracen_ctr_drbg_init (pureEnv (fun _ v => v) (List.range 48))
        ⟨0, 0⟩).2.1
      (nrfx_cracen_ctr_drbg_init (pureEnv (fun _ v => v) (List.range 48))
        ⟨0, 0⟩).2.2 false 32).out =
      (nist_generate (fun _ v => v)
        (nist_instantiate (fun _ v => v) (List.range 48)).1
        (nist_instantiate (fun _ v => v) (List.range 48)).2.1 1 32).1 := by
  have h := c1_init_generate_matches_nist (fun _ v => v) (List.range 48)
  exact ⟨h.1, by rw [h.2]⟩

end Cracen
